import Mathlib

/-!
Verification of the praxis repository's Cypher query safety gateway and
network-analysis result aggregation, as a shallow embedding in Lean 4.

Query strings are modelled as `List Char`.  Python string operations used by
the code (`str.upper`, `str.strip`, `str.replace`, `re.sub`, `re.findall`)
are embedded as executable functions on `List Char`; the embedding of each
regular expression follows the left-to-right, non-overlapping scan semantics
of Python's `re` module, restricted to the ASCII inputs the validators
handle.  Python floats are modelled as rationals (`ℚ`); none of the verified
properties depends on binary rounding.
-/

namespace Praxis

/-! ## Basic character classes and string helpers -/

/-- ASCII word character, Python's `\w` restricted to ASCII. -/
def wordChar (c : Char) : Bool :=
  (('a' ≤ c) && (c ≤ 'z')) || (('A' ≤ c) && (c ≤ 'Z')) ||
  (('0' ≤ c) && (c ≤ '9')) || (c == '_')

/-- ASCII letter. -/
def alphaChar (c : Char) : Bool :=
  (('a' ≤ c) && (c ≤ 'z')) || (('A' ≤ c) && (c ≤ 'Z'))

/-- ASCII whitespace, Python's `\s` restricted to ASCII. -/
def wsChar (c : Char) : Bool :=
  (c == ' ') || (c == '\t') || (c == '\n') || (c == '\r') ||
  (c == '\x0b') || (c == '\x0c')

/-- Lower/upper case pairs for ASCII letters. -/
def casePairs : List (Char × Char) :=
  [('a', 'A'), ('b', 'B'), ('c', 'C'), ('d', 'D'), ('e', 'E'), ('f', 'F'),
   ('g', 'G'), ('h', 'H'), ('i', 'I'), ('j', 'J'), ('k', 'K'), ('l', 'L'),
   ('m', 'M'), ('n', 'N'), ('o', 'O'), ('p', 'P'), ('q', 'Q'), ('r', 'R'),
   ('s', 'S'), ('t', 'T'), ('u', 'U'), ('v', 'V'), ('w', 'W'), ('x', 'X'),
   ('y', 'Y'), ('z', 'Z')]

/-- One character of Python's `str.upper` (ASCII fragment). -/
def upChar (c : Char) : Char :=
  (((casePairs.find? (fun p => p.1 == c)).map Prod.snd).getD c)

/-- One character of Python's `str.lower` (ASCII fragment). -/
def lowChar (c : Char) : Char :=
  (((casePairs.find? (fun p => p.2 == c)).map Prod.fst).getD c)

/-- Python `str.upper` on the ASCII fragment. -/
def pyUpper (s : List Char) : List Char := s.map upChar

/-- Python `str.lower` on the ASCII fragment. -/
def pyLower (s : List Char) : List Char := s.map lowChar

/-- `pre p s` holds iff `p` is a prefix of `s` (Boolean version). -/
def pre : List Char → List Char → Bool
  | [], _ => true
  | _ :: _, [] => false
  | a :: p, b :: s => (a == b) && pre p s

/-- `occ p s` holds iff `p` occurs as a contiguous substring of `s`. -/
def occ (p : List Char) : List Char → Bool
  | [] => pre p []
  | c :: t => pre p (c :: t) || occ p t

theorem pre_iff (p s : List Char) : pre p s = true ↔ ∃ v, s = p ++ v := by
  induction p generalizing s with
  | nil => simp [pre]
  | cons a p ih =>
    cases s with
    | nil => simp [pre]
    | cons b s =>
      simp only [pre, Bool.and_eq_true, beq_iff_eq, ih]
      constructor
      · rintro ⟨rfl, v, rfl⟩; exact ⟨v, rfl⟩
      · rintro ⟨v, hv⟩
        cases hv
        exact ⟨rfl, v, rfl⟩

theorem occ_iff (p s : List Char) : occ p s = true ↔ ∃ u v, s = u ++ p ++ v := by
  induction s with
  | nil =>
    simp only [occ, pre_iff]
    constructor
    · rintro ⟨v, hv⟩; exact ⟨[], v, hv⟩
    · rintro ⟨u, v, huv⟩
      rcases u with _ | ⟨c, u⟩
      · exact ⟨v, huv⟩
      · simp at huv
  | cons c t ih =>
    simp only [occ, Bool.or_eq_true, pre_iff, ih]
    constructor
    · rintro (⟨v, hv⟩ | ⟨u, v, huv⟩)
      · exact ⟨[], v, by simpa using hv⟩
      · exact ⟨c :: u, v, by simp [huv]⟩
    · rintro ⟨u, v, huv⟩
      rcases u with _ | ⟨d, u⟩
      · exact Or.inl ⟨v, by simpa using huv⟩
      · right
        refine ⟨u, v, ?_⟩
        have : c = d ∧ t = u ++ p ++ v := by simpa using huv
        simp [this.2]

theorem occ_of_pre {p s : List Char} (h : pre p s = true) : occ p s = true := by
  rcases (pre_iff p s).mp h with ⟨v, rfl⟩
  exact (occ_iff p (p ++ v)).mpr ⟨[], v, rfl⟩

theorem occ_append_left {p a b : List Char} (h : occ p a = true) :
    occ p (a ++ b) = true := by
  rcases (occ_iff p a).mp h with ⟨u, v, rfl⟩
  exact (occ_iff _ _).mpr ⟨u, v ++ b, by simp⟩

theorem occ_append_right {p : List Char} (a : List Char) {b : List Char}
    (h : occ p b = true) : occ p (a ++ b) = true := by
  rcases (occ_iff p b).mp h with ⟨u, v, rfl⟩
  exact (occ_iff _ _).mpr ⟨a ++ u, v, by simp⟩

theorem occ_cons {p : List Char} (c : Char) {t : List Char}
    (h : occ p t = true) : occ p (c :: t) = true := by
  simp [occ, h]

/-- If `p` occurs nowhere in `c :: t` it occurs nowhere in `t`. -/
theorem not_occ_of_not_occ_cons {p : List Char} {c : Char} {t : List Char}
    (h : ¬ occ p (c :: t) = true) : ¬ occ p t = true :=
  fun hc => h (occ_cons c hc)

/-- Trailing word-boundary test: the remainder starts with a non-word
character or is empty. -/
def bOkB : List Char → Bool
  | [] => true
  | c :: _ => !(wordChar c)

/-- `occB p s`: `p` occurs in `s` immediately followed by a word boundary
(end of string or a non-word character) — an occurrence of the token `p`
as Python's `re` sees `p + r'\b'` when `p` ends in a word character. -/
def occB (p : List Char) : List Char → Bool
  | [] => pre p [] && bOkB (List.drop p.length [])
  | c :: t => (pre p (c :: t) && bOkB ((c :: t).drop p.length)) || occB p t

theorem pre_bOkB_iff (p s : List Char) :
    (pre p s && bOkB (s.drop p.length)) = true ↔
      ∃ v, s = p ++ v ∧ bOkB v = true := by
  rw [Bool.and_eq_true]
  constructor
  · rintro ⟨h1, h2⟩
    obtain ⟨v, rfl⟩ := (pre_iff p s).mp h1
    refine ⟨v, rfl, ?_⟩
    rwa [List.drop_left] at h2
  · rintro ⟨v, rfl, hv⟩
    refine ⟨(pre_iff _ _).mpr ⟨v, rfl⟩, ?_⟩
    rwa [List.drop_left]

theorem occB_iff (p s : List Char) :
    occB p s = true ↔ ∃ u v, s = u ++ p ++ v ∧ bOkB v = true := by
  induction s with
  | nil =>
    simp only [occB, pre_bOkB_iff]
    constructor
    · rintro ⟨v, hv, hb⟩; exact ⟨[], v, hv, hb⟩
    · rintro ⟨u, v, huv, hb⟩
      rcases u with _ | ⟨c, u⟩
      · exact ⟨v, huv, hb⟩
      · simp at huv
  | cons c t ih =>
    simp only [occB, Bool.or_eq_true, pre_bOkB_iff, ih]
    constructor
    · rintro (⟨v, hv, hb⟩ | ⟨u, v, huv, hb⟩)
      · exact ⟨[], v, by simpa using hv, hb⟩
      · exact ⟨c :: u, v, by simp [huv], hb⟩
    · rintro ⟨u, v, huv, hb⟩
      rcases u with _ | ⟨d, u⟩
      · exact Or.inl ⟨v, by simpa using huv, hb⟩
      · right
        have : c = d ∧ t = u ++ p ++ v := by simpa using huv
        exact ⟨u, v, this.2, hb⟩

theorem occ_of_occB {p s : List Char} (h : occB p s = true) : occ p s = true := by
  obtain ⟨u, v, huv, _⟩ := (occB_iff p s).mp h
  exact (occ_iff p s).mpr ⟨u, v, huv⟩

theorem occB_cons {p : List Char} (c : Char) {t : List Char}
    (h : occB p t = true) : occB p (c :: t) = true := by
  simp [occB, h]

theorem occB_append_right {p : List Char} (a : List Char) {b : List Char}
    (h : occB p b = true) : occB p (a ++ b) = true := by
  obtain ⟨u, v, rfl, hb⟩ := (occB_iff p b).mp h
  exact (occB_iff _ _).mpr ⟨a ++ u, v, by simp, hb⟩

/-- Prefixes of the same list are comparable. -/
theorem pre_total : ∀ (t x y : List Char), pre x t = true → pre y t = true →
    pre x y = true ∨ pre y x = true
  | _, [], y, _, _ => Or.inl rfl
  | _, _ :: _, [], _, _ => Or.inr rfl
  | t, a :: x, b :: y, hx, hy => by
    cases t with
    | nil => cases hx
    | cons c t =>
      simp only [pre, Bool.and_eq_true, beq_iff_eq] at hx hy
      rcases pre_total t x y hx.2 hy.2 with h | h
      · exact Or.inl (by simp [pre, hx.1, hy.1, h])
      · exact Or.inr (by simp [pre, hx.1, hy.1, h])

/-- A shorter pattern that is a prefix of `q` occurs wherever `q` occurs. -/
theorem occ_of_pre_of_occ {p q s : List Char} (hpq : pre p q = true)
    (h : occ q s = true) : occ p s = true := by
  obtain ⟨v, rfl⟩ := (pre_iff p q).mp hpq
  obtain ⟨u, w, rfl⟩ := (occ_iff _ _).mp h
  exact (occ_iff _ _).mpr ⟨u, v ++ w, by simp⟩

/-- Occurrence in an append: wholly left, wholly right, or spanning the
boundary with a nonempty piece on each side. -/
theorem occ_append_cases {q a b : List Char} (h : occ q (a ++ b) = true) :
    occ q a = true ∨ occ q b = true ∨
    ∃ q₁ q₂, q = q₁ ++ q₂ ∧ q₁ ≠ [] ∧ q₂ ≠ [] ∧
      (∃ w, a = w ++ q₁) ∧ pre q₂ b = true := by
  obtain ⟨u, v, huv⟩ := (occ_iff _ _).mp h
  have huv' : a ++ b = u ++ (q ++ v) := by simpa [List.append_assoc] using huv
  rcases List.append_eq_append_iff.mp huv' with ⟨m, hm1, hm2⟩ | ⟨m, hm1, hm2⟩
  · exact Or.inr (Or.inl ((occ_iff _ _).mpr ⟨m, v, by simp [hm2]⟩))
  · rcases List.append_eq_append_iff.mp hm2 with ⟨d, hd1, hd2⟩ | ⟨d, hd1, hd2⟩
    · refine Or.inl ((occ_iff _ _).mpr ⟨u, d, ?_⟩)
      rw [hm1, hd1]
      simp
    · rcases eq_or_ne m [] with rfl | hmne
      · refine Or.inr (Or.inl ((occ_iff _ _).mpr ⟨[], v, ?_⟩))
        simp only [List.nil_append] at hd1
        rw [hd2, ← hd1]
        simp
      · rcases eq_or_ne d [] with rfl | hdne
        · refine Or.inl ((occ_iff _ _).mpr ⟨u, [], ?_⟩)
          simp only [List.append_nil] at hd1 ⊢
          rw [hm1, hd1]
        · refine Or.inr (Or.inr ⟨m, d, hd1, hmne, hdne, ⟨u, hm1⟩, ?_⟩)
          exact (pre_iff _ _).mpr ⟨v, hd2⟩

/-- Boundary-occurrence in an append: plain occurrence wholly in the left
part, boundary occurrence wholly in the right part, or spanning. -/
theorem occB_append_cases {q a b : List Char} (h : occB q (a ++ b) = true) :
    occ q a = true ∨ occB q b = true ∨
    ∃ q₁ q₂, q = q₁ ++ q₂ ∧ q₁ ≠ [] ∧ q₂ ≠ [] ∧
      (∃ w, a = w ++ q₁) ∧ pre q₂ b = true := by
  obtain ⟨u, v, huv, hbnd⟩ := (occB_iff _ _).mp h
  have huv' : a ++ b = u ++ (q ++ v) := by simpa [List.append_assoc] using huv
  rcases List.append_eq_append_iff.mp huv' with ⟨m, hm1, hm2⟩ | ⟨m, hm1, hm2⟩
  · exact Or.inr (Or.inl ((occB_iff _ _).mpr ⟨m, v, by simp [hm2], hbnd⟩))
  · rcases List.append_eq_append_iff.mp hm2 with ⟨d, hd1, hd2⟩ | ⟨d, hd1, hd2⟩
    · refine Or.inl ((occ_iff _ _).mpr ⟨u, d, ?_⟩)
      rw [hm1, hd1]
      simp
    · rcases eq_or_ne m [] with rfl | hmne
      · refine Or.inr (Or.inl ((occB_iff _ _).mpr ⟨[], v, ?_, hbnd⟩))
        simp only [List.nil_append] at hd1
        rw [hd2, ← hd1]
        simp
      · rcases eq_or_ne d [] with rfl | hdne
        · refine Or.inl ((occ_iff _ _).mpr ⟨u, [], ?_⟩)
          simp only [List.append_nil] at hd1 ⊢
          rw [hm1, hd1]
        · refine Or.inr (Or.inr ⟨m, d, hd1, hmne, hdne, ⟨u, hm1⟩, ?_⟩)
          exact (pre_iff _ _).mpr ⟨v, hd2⟩

/-- A nonempty suffix of `m :: p'` that starts with the marker `m` (which
does not recur in `p'`) is the whole list. -/
theorem suffix_marker_eq {m : Char} {p' w q₁ x : List Char} (hm : m ∉ p')
    (ha : m :: p' = w ++ q₁) (hq : q₁ = m :: x) : q₁ = m :: p' := by
  cases w with
  | nil => simpa using ha.symm
  | cons a w' =>
    exfalso
    obtain ⟨h1, h2⟩ : m = a ∧ p' = w' ++ q₁ := by simpa using ha
    apply hm
    rw [h2, hq]
    exact List.mem_append_right w' (List.mem_cons_self m x)

/-! ## Python `str.strip`, comment stripping, whitespace collapsing -/

/-- Python `str.strip()` (ASCII whitespace). -/
def pyStrip (s : List Char) : List Char :=
  ((s.dropWhile wsChar).reverse.dropWhile wsChar).reverse

/-- Worker for `re.sub(r'//.*$', '', s, flags=re.MULTILINE)`: a `//` removes
everything up to (excluding) the next newline. -/
def lineCommA : Nat → List Char → List Char
  | 0, s => s
  | _ + 1, [] => []
  | f + 1, c :: t =>
    if c == '/' then
      match t with
      | '/' :: u => lineCommA f (u.dropWhile (fun d => !(d == '\n')))
      | _ => c :: lineCommA f t
    else c :: lineCommA f t

def removeLineComments (s : List Char) : List Char := lineCommA s.length s

/-- Rest of the input after the first `*/`, if any. -/
def findClose : List Char → Option (List Char)
  | [] => none
  | '*' :: '/' :: rest => some rest
  | _ :: t => findClose t

/-- Worker for `re.sub(r'/\*.*?\*/', '', s, flags=re.DOTALL)`: each `/*` with
a later `*/` is removed together with everything in between (shortest match);
an unclosed `/*` is kept verbatim. -/
def blockCommA : Nat → List Char → List Char
  | 0, s => s
  | _ + 1, [] => []
  | f + 1, c :: t =>
    if c == '/' then
      match t with
      | '*' :: u =>
        match findClose u with
        | some rest => blockCommA f rest
        | none => c :: blockCommA f t
      | _ => c :: blockCommA f t
    else c :: blockCommA f t

def removeBlockComments (s : List Char) : List Char := blockCommA s.length s

/-- Worker for `re.sub(r'\s+', ' ', s)`: each maximal whitespace run becomes
one space.  The flag records whether the previous character was whitespace. -/
def collapseWsGo : Bool → List Char → List Char
  | _, [] => []
  | prevWs, c :: t =>
    if wsChar c then
      if prevWs then collapseWsGo true t else ' ' :: collapseWsGo true t
    else c :: collapseWsGo false t

def collapseWs (s : List Char) : List Char := collapseWsGo false s

/-! ## Generic replacement engine

`repl pat rep useB s` is Python `s.replace(pat, rep)` when `useB = false`,
and `re.sub(pat + r'\b', rep, s)` when `useB = true` and `pat` ends in a word
character (the trailing `\b` then holds exactly when the next character is
absent or a non-word character).  Both scan left to right without overlap.
The worker is fuelled to keep the definition structurally recursive (and so
kernel-computable); `repl` supplies sufficient fuel. -/

/-- Does a replacement fire at the current position? -/
def matchAt (pat : List Char) (useB : Bool) (s : List Char) : Bool :=
  !(pat.isEmpty) && pre pat s && (!useB || bOkB (s.drop pat.length))

def replA (pat rep : List Char) (useB : Bool) : Nat → List Char → List Char
  | _, [] => []
  | 0, s => s
  | f + 1, c :: t =>
    if matchAt pat useB (c :: t) = true then
      rep ++ replA pat rep useB f (t.drop (pat.length - 1))
    else
      c :: replA pat rep useB f t

def repl (pat rep : List Char) (useB : Bool) (s : List Char) : List Char :=
  replA pat rep useB s.length s

theorem replA_step (pat rep : List Char) (useB : Bool) (f : Nat) (c : Char)
    (t : List Char) :
    replA pat rep useB (f + 1) (c :: t) =
      if matchAt pat useB (c :: t) = true then
        rep ++ replA pat rep useB f (t.drop (pat.length - 1))
      else
        c :: replA pat rep useB f t := rfl

theorem replA_fuel (pat rep : List Char) (useB : Bool) :
    ∀ f g s, s.length ≤ f → s.length ≤ g →
      replA pat rep useB f s = replA pat rep useB g s := by
  intro f
  induction f with
  | zero =>
    intro g s hf _
    have : s = [] := List.eq_nil_of_length_eq_zero (Nat.le_zero.mp hf)
    subst this
    cases g <;> rfl
  | succ f ih =>
    intro g s hf hg
    cases s with
    | nil => cases g <;> rfl
    | cons c t =>
      cases g with
      | zero => exact absurd hg (by simp)
      | succ g =>
        rw [replA_step, replA_step]
        have hft : t.length ≤ f := by
          simpa using Nat.lt_succ_iff.mp (Nat.lt_of_lt_of_le (by simp) hf)
        have hgt : t.length ≤ g := by
          simpa using Nat.lt_succ_iff.mp (Nat.lt_of_lt_of_le (by simp) hg)
        by_cases hm : matchAt pat useB (c :: t) = true
        · rw [if_pos hm, if_pos hm]
          have hlen : (t.drop (pat.length - 1)).length ≤ t.length := by
            rw [List.length_drop]; omega
          rw [ih g (t.drop (pat.length - 1)) (le_trans hlen hft) (le_trans hlen hgt)]
        · rw [if_neg hm, if_neg hm, ih g t hft hgt]

theorem repl_nil (pat rep : List Char) (useB : Bool) :
    repl pat rep useB [] = [] := rfl

theorem repl_cons_pos {pat : List Char} (rep : List Char) (useB : Bool)
    {c : Char} {t : List Char} (h : matchAt pat useB (c :: t) = true) :
    repl pat rep useB (c :: t) = rep ++ repl pat rep useB (t.drop (pat.length - 1)) := by
  have hlen : (t.drop (pat.length - 1)).length ≤ t.length := by
    rw [List.length_drop]; omega
  unfold repl
  rw [List.length_cons, replA_step, if_pos h,
    replA_fuel pat rep useB t.length (t.drop (pat.length - 1)).length _ hlen le_rfl]

theorem repl_cons_neg {pat : List Char} (rep : List Char) (useB : Bool)
    {c : Char} {t : List Char} (h : ¬ matchAt pat useB (c :: t) = true) :
    repl pat rep useB (c :: t) = c :: repl pat rep useB t := by
  unfold repl
  rw [List.length_cons, replA_step, if_neg h]

/-- After a positive match, `s = pat ++ (rest)` with the recursion running on
`rest`; restate `repl_cons_pos` in that form. -/
theorem repl_append_pos {pat : List Char} (rep : List Char) (useB : Bool)
    {s v : List Char} (hne : pat ≠ []) (hs : s = pat ++ v)
    (hb : useB = true → bOkB v = true) :
    repl pat rep useB s = rep ++ repl pat rep useB v := by
  rcases pat with _ | ⟨a, p⟩
  · exact absurd rfl hne
  · subst hs
    have hpre : pre (a :: p) (a :: (p ++ v)) = true :=
      (pre_iff _ _).mpr ⟨v, rfl⟩
    have hdropall : ((a :: p) ++ v).drop (a :: p).length = v :=
      List.drop_left (a :: p) v
    have hm : matchAt (a :: p) useB (a :: (p ++ v)) = true := by
      unfold matchAt
      cases useB with
      | false => simp [hpre]
      | true =>
        have := hb rfl
        simp only [List.cons_append] at hdropall
        simp [hpre, hdropall, this]
    have hdrop : (p ++ v).drop ((a :: p).length - 1) = v := by
      simp only [List.length_cons, Nat.add_sub_cancel]
      exact List.drop_left p v
    calc repl (a :: p) rep useB (a :: (p ++ v))
        = rep ++ repl (a :: p) rep useB ((p ++ v).drop ((a :: p).length - 1)) :=
          repl_cons_pos rep useB hm
      _ = rep ++ repl (a :: p) rep useB v := by rw [hdrop]

/-! ### Structural lemmas about `repl`

All patterns handled below have the shape `m :: p'` with a marker character
`m` (`':'` for relationship tokens, `'.'` for property accessors) that does
not recur in `p'`, and replacements `m :: r'` with the same marker.  These
lemmas justify the alias-substitution round-trip of the query normalizer. -/

theorem matchAt_plain (m : Char) (p' : List Char) (s : List Char) :
    matchAt (m :: p') false s = pre (m :: p') s := by
  simp [matchAt]

/-- A successful match means the pattern is a prefix at this position. -/
theorem pre_of_matchAt {pat : List Char} {useB : Bool} {s : List Char}
    (h : matchAt pat useB s = true) : pre pat s = true := by
  simp only [matchAt, Bool.and_eq_true] at h
  exact h.1.2

theorem matchAt_bound (m : Char) (p' : List Char) (s : List Char) :
    matchAt (m :: p') true s = (pre (m :: p') s && bOkB (s.drop (m :: p').length)) := by
  simp [matchAt]

theorem eq_append_drop_of_pre {p s : List Char} (h : pre p s = true) :
    s = p ++ s.drop p.length := by
  obtain ⟨v, rfl⟩ := (pre_iff p s).mp h
  rw [List.drop_left]

/-- A nonempty suffix of `m :: r'` starting with `mq` is the whole list or
has its head inside `r'`. -/
theorem suffix_cases {m mq : Char} {r' w q₁ x : List Char}
    (h : m :: r' = w ++ q₁) (hq : q₁ = mq :: x) : q₁ = m :: r' ∨ mq ∈ r' := by
  cases w with
  | nil => exact Or.inl (by simpa using h.symm)
  | cons a w' =>
    obtain ⟨h1, h2⟩ : m = a ∧ r' = w' ++ q₁ := by simpa using h
    refine Or.inr ?_
    rw [h2, hq]
    exact List.mem_append_right w' (List.mem_cons_self mq x)

/-- Occurrences of a marker-headed pattern inside a single marker-headed
list reduce to a prefix test. -/
theorem occ_marker (m : Char) {p' y' : List Char} (hmy : m ∉ y')
    (hpre : pre (m :: p') (m :: y') = false) :
    occ (m :: p') (m :: y') = false := by
  rw [Bool.eq_false_iff]
  intro h
  have h2 : pre (m :: p') (m :: y') = true ∨ occ (m :: p') y' = true := by
    simpa [occ] using h
  rcases h2 with h1 | h1
  · rw [hpre] at h1; cases h1
  · obtain ⟨u, v, huv⟩ := (occ_iff _ _).mp h1
    apply hmy
    rw [huv]
    exact List.mem_append_left v (List.mem_append_right u (List.mem_cons_self m p'))

/-- A marker-free prefix of the output of `repl` is a prefix of the input. -/
theorem pre_repl_out (m : Char) (p' r' : List Char) (useB : Bool) :
    ∀ n t x, t.length ≤ n → m ∉ x →
      pre x (repl (m :: p') (m :: r') useB t) = true → pre x t = true := by
  intro n
  induction n with
  | zero =>
    intro t x ht hx h
    have : t = [] := List.eq_nil_of_length_eq_zero (Nat.le_zero.mp ht)
    subst this
    rwa [repl_nil] at h
  | succ n ih =>
    intro t x ht hx h
    cases t with
    | nil => rwa [repl_nil] at h
    | cons c t' =>
      by_cases hm : matchAt (m :: p') useB (c :: t') = true
      · rw [repl_cons_pos _ _ hm, List.cons_append] at h
        cases x with
        | nil => rfl
        | cons a x' =>
          exfalso
          simp only [pre, Bool.and_eq_true, beq_iff_eq] at h
          exact hx (h.1 ▸ List.mem_cons_self a x')
      · rw [repl_cons_neg _ _ hm] at h
        cases x with
        | nil => rfl
        | cons a x' =>
          simp only [pre, Bool.and_eq_true, beq_iff_eq] at h ⊢
          refine ⟨h.1, ?_⟩
          have ht' : t'.length ≤ n := by simpa using Nat.succ_le_succ_iff.mp ht
          exact ih t' x' ht' (fun hc => hx (List.mem_cons_of_mem a hc)) h.2

/-- A marker-free prefix of the input survives as a prefix of the output. -/
theorem pre_repl_in (m : Char) (p' rep : List Char) (useB : Bool) :
    ∀ n t x, t.length ≤ n → m ∉ x → pre x t = true →
      pre x (repl (m :: p') rep useB t) = true := by
  intro n
  induction n with
  | zero =>
    intro t x ht hx h
    have : t = [] := List.eq_nil_of_length_eq_zero (Nat.le_zero.mp ht)
    subst this
    rwa [repl_nil]
  | succ n ih =>
    intro t x ht hx h
    cases t with
    | nil => rwa [repl_nil]
    | cons c t' =>
      by_cases hm : matchAt (m :: p') useB (c :: t') = true
      · cases x with
        | nil => rfl
        | cons a x' =>
          exfalso
          have hpre : pre (m :: p') (c :: t') = true := pre_of_matchAt hm
          have hc : c = m := by
            simp only [pre, Bool.and_eq_true, beq_iff_eq] at hpre
            exact hpre.1.symm
          simp only [pre, Bool.and_eq_true, beq_iff_eq] at h
          exact hx ((h.1.trans hc) ▸ List.mem_cons_self a x')
      · rw [repl_cons_neg _ _ hm]
        cases x with
        | nil => rfl
        | cons a x' =>
          simp only [pre, Bool.and_eq_true, beq_iff_eq] at h ⊢
          refine ⟨h.1, ?_⟩
          have ht' : t'.length ≤ n := by simpa using Nat.succ_le_succ_iff.mp ht
          exact ih t' x' ht' (fun hc => hx (List.mem_cons_of_mem a hc)) h.2

/-- A marker-free prefix of the input is copied verbatim by `repl`, which
continues after it. -/
theorem repl_copy_prefix (m : Char) (p' rep : List Char) (useB : Bool) :
    ∀ n t x, t.length ≤ n → m ∉ x → pre x t = true →
      repl (m :: p') rep useB t = x ++ repl (m :: p') rep useB (t.drop x.length) := by
  intro n
  induction n with
  | zero =>
    intro t x ht hx h
    have : t = [] := List.eq_nil_of_length_eq_zero (Nat.le_zero.mp ht)
    subst this
    cases x with
    | nil => simp
    | cons a x' => cases h
  | succ n ih =>
    intro t x ht hx h
    cases x with
    | nil => simp
    | cons a x' =>
      cases t with
      | nil => cases h
      | cons c t' =>
        simp only [pre, Bool.and_eq_true, beq_iff_eq] at h
        have hm : matchAt (m :: p') useB (c :: t') = false := by
          rw [Bool.eq_false_iff]
          intro hmt
          have hpre : pre (m :: p') (c :: t') = true := pre_of_matchAt hmt
          have hc : c = m := by
            simp only [pre, Bool.and_eq_true, beq_iff_eq] at hpre
            exact hpre.1.symm
          exact hx ((h.1.trans hc) ▸ List.mem_cons_self a x')
        rw [repl_cons_neg _ _ (by rw [hm]; intro hc; cases hc)]
        have ht' : t'.length ≤ n := by simpa using Nat.succ_le_succ_iff.mp ht
        rw [ih t' x' ht' (fun hc => hx (List.mem_cons_of_mem a hc)) h.2]
        simp [h.1, List.drop_succ_cons]

/-- The boundary test survives `repl` when the marker is a non-word
character. -/
theorem repl_bOkB (m : Char) (p' r' : List Char) (useB : Bool)
    (hmw : wordChar m = false) {w : List Char} (hw : bOkB w = true) :
    bOkB (repl (m :: p') (m :: r') useB w) = true := by
  cases w with
  | nil => rw [repl_nil]; rfl
  | cons e w₂ =>
    by_cases hm : matchAt (m :: p') useB (e :: w₂) = true
    · rw [repl_cons_pos _ _ hm, List.cons_append]
      simp [bOkB, hmw]
    · rw [repl_cons_neg _ _ hm]
      simpa [bOkB] using hw

/-- `repl` leaves a word-character head in place when the marker is
non-word. -/
theorem repl_word_head (m : Char) (p' rep : List Char) (useB : Bool)
    (hmw : wordChar m = false) {e : Char} {w₂ : List Char}
    (he : wordChar e = true) :
    repl (m :: p') rep useB (e :: w₂) = e :: repl (m :: p') rep useB w₂ := by
  apply repl_cons_neg
  rw [Bool.not_eq_true, Bool.eq_false_iff]
  intro hmt
  have hpre : pre (m :: p') (e :: w₂) = true := pre_of_matchAt hmt
  have hc : e = m := by
    simp only [pre, Bool.and_eq_true, beq_iff_eq] at hpre
    exact hpre.1.symm
  rw [hc, hmw] at he
  cases he

/-- The boundary after a replacement run holds iff it held before, when the
marker is a non-word character. -/
theorem bOkB_of_repl_bOkB (m : Char) (p' rep : List Char) (useB : Bool)
    (hmw : wordChar m = false) {w : List Char}
    (h : bOkB (repl (m :: p') rep useB w) = true) : bOkB w = true := by
  cases w with
  | nil => rfl
  | cons e w₂ =>
    by_cases hm : matchAt (m :: p') useB (e :: w₂) = true
    · have he : e = m := by
        have hpre := pre_of_matchAt hm
        simp only [pre, Bool.and_eq_true, beq_iff_eq] at hpre
        exact hpre.1.symm
      simp [bOkB, he, hmw]
    · rw [repl_cons_neg _ _ hm] at h
      simpa [bOkB] using h

/-- The decomposition step for a positive match on `c :: t'`. -/
theorem match_decomp {m : Char} {p' : List Char} {useB : Bool} {c : Char}
    {t' : List Char} (hm : matchAt (m :: p') useB (c :: t') = true) :
    c :: t' = (m :: p') ++ t'.drop ((m :: p').length - 1) := by
  have h := eq_append_drop_of_pre (pre_of_matchAt hm)
  simpa [List.length_cons] using h

/-- After its own pass, a marker pattern no longer occurs (plain mode). -/
theorem repl_no_occ (m : Char) (p' r' : List Char)
    (hmp : m ∉ p') (hmr : m ∉ r')
    (hpr : pre (m :: p') (m :: r') = false) (hrp : pre (m :: r') (m :: p') = false) :
    ∀ n t, t.length ≤ n →
      occ (m :: p') (repl (m :: p') (m :: r') false t) = false := by
  intro n
  induction n with
  | zero =>
    intro t ht
    have : t = [] := List.eq_nil_of_length_eq_zero (Nat.le_zero.mp ht)
    subst this
    rw [repl_nil]
    rfl
  | succ n ih =>
    intro t ht
    cases t with
    | nil => rw [repl_nil]; rfl
    | cons c t' =>
      have ht' : t'.length ≤ n := by simpa using Nat.succ_le_succ_iff.mp ht
      have hlen : (t'.drop ((m :: p').length - 1)).length ≤ n :=
        le_trans (by rw [List.length_drop]; omega) ht'
      by_cases hm : matchAt (m :: p') false (c :: t') = true
      · rw [repl_cons_pos _ _ hm, Bool.eq_false_iff]
        intro hocc
        rcases occ_append_cases hocc with h1 | h1 | ⟨q₁, q₂, hq, hq1ne, hq2ne, ⟨w, hw⟩, hq2⟩
        · rw [occ_marker m hmr hpr] at h1; cases h1
        · rw [ih _ hlen] at h1; cases h1
        · obtain ⟨x, rfl⟩ : ∃ x, q₁ = m :: x := by
            cases q₁ with
            | nil => exact absurd rfl hq1ne
            | cons b q₁' =>
              obtain ⟨hb, -⟩ : m = b ∧ p' = q₁' ++ q₂ := by simpa using hq
              exact ⟨q₁', by rw [hb]⟩
          rcases suffix_cases hw rfl with hq₁ | hmem
          · rw [hq₁] at hq
            have hq' : pre (m :: r') (m :: p') = true := (pre_iff _ _).mpr ⟨q₂, hq⟩
            rw [hrp] at hq'; cases hq'
          · exact hmr hmem
      · rw [repl_cons_neg _ _ hm, Bool.eq_false_iff]
        intro hocc
        have h2 : pre (m :: p') (c :: repl (m :: p') (m :: r') false t') = true ∨
            occ (m :: p') (repl (m :: p') (m :: r') false t') = true := by
          simpa [occ] using hocc
        rcases h2 with h1 | h1
        · simp only [pre, Bool.and_eq_true, beq_iff_eq] at h1
          have hp't : pre p' t' = true :=
            pre_repl_out m p' r' false n t' p' ht' hmp h1.2
          apply hm
          rw [matchAt_plain]
          simp [pre, h1.1, hp't]
        · rw [ih t' ht'] at h1; cases h1

/-- After its own pass, a marker pattern has no boundary occurrence
(boundary mode). -/
theorem repl_no_occB (m : Char) (p' r' : List Char)
    (hmp : m ∉ p') (hmr : m ∉ r')
    (hpr : pre (m :: p') (m :: r') = false) (hrp : pre (m :: r') (m :: p') = false)
    (hmw : wordChar m = false) :
    ∀ n t, t.length ≤ n →
      occB (m :: p') (repl (m :: p') (m :: r') true t) = false := by
  intro n
  induction n with
  | zero =>
    intro t ht
    have : t = [] := List.eq_nil_of_length_eq_zero (Nat.le_zero.mp ht)
    subst this
    rw [repl_nil]
    rfl
  | succ n ih =>
    intro t ht
    cases t with
    | nil => rw [repl_nil]; rfl
    | cons c t' =>
      have ht' : t'.length ≤ n := by simpa using Nat.succ_le_succ_iff.mp ht
      have hlen : (t'.drop ((m :: p').length - 1)).length ≤ n :=
        le_trans (by rw [List.length_drop]; omega) ht'
      by_cases hm : matchAt (m :: p') true (c :: t') = true
      · rw [repl_cons_pos _ _ hm, Bool.eq_false_iff]
        intro hocc
        rcases occB_append_cases hocc with h1 | h1 | ⟨q₁, q₂, hq, hq1ne, hq2ne, ⟨w, hw⟩, hq2⟩
        · rw [occ_marker m hmr hpr] at h1; cases h1
        · rw [ih _ hlen] at h1; cases h1
        · obtain ⟨x, rfl⟩ : ∃ x, q₁ = m :: x := by
            cases q₁ with
            | nil => exact absurd rfl hq1ne
            | cons b q₁' =>
              obtain ⟨hb, -⟩ : m = b ∧ p' = q₁' ++ q₂ := by simpa using hq
              exact ⟨q₁', by rw [hb]⟩
          rcases suffix_cases hw rfl with hq₁ | hmem
          · rw [hq₁] at hq
            have hq' : pre (m :: r') (m :: p') = true := (pre_iff _ _).mpr ⟨q₂, hq⟩
            rw [hrp] at hq'; cases hq'
          · exact hmr hmem
      · rw [repl_cons_neg _ _ hm, Bool.eq_false_iff]
        intro hocc
        have h2 : (pre (m :: p') (c :: repl (m :: p') (m :: r') true t') &&
              bOkB ((c :: repl (m :: p') (m :: r') true t').drop (m :: p').length)) = true ∨
            occB (m :: p') (repl (m :: p') (m :: r') true t') = true := by
          simpa [occB] using hocc
        rcases h2 with h1 | h1
        · rw [Bool.and_eq_true] at h1
          obtain ⟨hpre1, hbnd1⟩ := h1
          simp only [pre, Bool.and_eq_true, beq_iff_eq] at hpre1
          have hp't : pre p' t' = true :=
            pre_repl_out m p' r' true n t' p' ht' hmp hpre1.2
          have hw' : t' = p' ++ t'.drop p'.length := eq_append_drop_of_pre hp't
          have hcopy : repl (m :: p') (m :: r') true t' =
              p' ++ repl (m :: p') (m :: r') true (t'.drop p'.length) :=
            repl_copy_prefix m p' (m :: r') true n t' p' ht' hmp hp't
          have hbnd2 : bOkB (repl (m :: p') (m :: r') true (t'.drop p'.length)) = true := by
            have : (c :: repl (m :: p') (m :: r') true t').drop (m :: p').length =
                repl (m :: p') (m :: r') true (t'.drop p'.length) := by
              rw [List.length_cons, List.drop_succ_cons, hcopy, List.drop_left]
            rwa [this] at hbnd1
          -- the match at `c :: t'` failed, so the boundary after `p'` fails
          have hpret : pre (m :: p') (c :: t') = true := by
            simp [pre, hpre1.1, hp't]
          have hbfail : bOkB ((c :: t').drop (m :: p').length) = false := by
            by_contra hbb
            apply hm
            rw [matchAt_bound, Bool.and_eq_true]
            exact ⟨hpret, Bool.not_eq_false _ |>.mp hbb⟩
          rw [List.length_cons, List.drop_succ_cons] at hbfail
          rcases hdw : t'.drop p'.length with _ | ⟨wc, w₂⟩
          · rw [hdw] at hbfail; cases hbfail
          · have hwc : wordChar wc = true := by
              rw [hdw] at hbfail
              simpa [bOkB] using hbfail
            rw [hdw, repl_word_head m p' (m :: r') true hmw hwc] at hbnd2
            simp [bOkB, hwc] at hbnd2
        · rw [ih t' ht'] at h1; cases h1

/-- A pass for another marker pattern cannot introduce an occurrence of `q`
(plain occurrences). -/
theorem repl_keep_no_occ (m mq : Char) (p' r' q' : List Char) (useB : Bool)
    (hmq' : m ∉ q')
    (hqrep : occ (mq :: q') (m :: r') = false)
    (hrq : pre (m :: r') (mq :: q') = false)
    (hmqr : mq ∉ r') :
    ∀ n t, t.length ≤ n → occ (mq :: q') t = false →
      occ (mq :: q') (repl (m :: p') (m :: r') useB t) = false := by
  intro n
  induction n with
  | zero =>
    intro t ht h
    have : t = [] := List.eq_nil_of_length_eq_zero (Nat.le_zero.mp ht)
    subst this
    rwa [repl_nil]
  | succ n ih =>
    intro t ht h
    cases t with
    | nil => rwa [repl_nil]
    | cons c t' =>
      have ht' : t'.length ≤ n := by simpa using Nat.succ_le_succ_iff.mp ht
      have hlen : (t'.drop ((m :: p').length - 1)).length ≤ n :=
        le_trans (by rw [List.length_drop]; omega) ht'
      have hsplit : pre (mq :: q') (c :: t') = false ∧ occ (mq :: q') t' = false := by
        constructor
        · by_contra hb
          rw [Bool.eq_false_iff] at h
          exact h (by simp [occ, Bool.not_eq_false _ |>.mp hb])
        · by_contra hb
          rw [Bool.eq_false_iff] at h
          exact h (occ_cons c (Bool.not_eq_false _ |>.mp hb))
      by_cases hm : matchAt (m :: p') useB (c :: t') = true
      · rw [repl_cons_pos _ _ hm, Bool.eq_false_iff]
        intro hocc
        have hq2 : occ (mq :: q') (t'.drop ((m :: p').length - 1)) = false := by
          by_contra hb
          rw [Bool.eq_false_iff] at h
          apply h
          rw [match_decomp hm]
          exact occ_append_right _ (Bool.not_eq_false _ |>.mp hb)
        rcases occ_append_cases hocc with h1 | h1 | ⟨q₁, q₂, hq, hq1ne, hq2ne, ⟨w, hw⟩, hq2p⟩
        · rw [hqrep] at h1; cases h1
        · rw [ih _ hlen hq2] at h1; cases h1
        · obtain ⟨x, rfl⟩ : ∃ x, q₁ = mq :: x := by
            cases q₁ with
            | nil => exact absurd rfl hq1ne
            | cons b q₁' =>
              obtain ⟨hb, -⟩ : mq = b ∧ q' = q₁' ++ q₂ := by simpa using hq
              exact ⟨q₁', by rw [hb]⟩
          rcases suffix_cases hw rfl with hq₁ | hmem
          · rw [hq₁] at hq
            have hq'' : pre (m :: r') (mq :: q') = true := (pre_iff _ _).mpr ⟨q₂, hq⟩
            rw [hrq] at hq''; cases hq''
          · exact hmqr hmem
      · rw [repl_cons_neg _ _ hm, Bool.eq_false_iff]
        intro hocc
        have h2 : pre (mq :: q') (c :: repl (m :: p') (m :: r') useB t') = true ∨
            occ (mq :: q') (repl (m :: p') (m :: r') useB t') = true := by
          simpa [occ] using hocc
        rcases h2 with h1 | h1
        · simp only [pre, Bool.and_eq_true, beq_iff_eq] at h1
          have hq't : pre q' t' = true :=
            pre_repl_out m p' r' useB n t' q' ht' hmq' h1.2
          rw [Bool.eq_false_iff] at h
          apply h
          simp [occ, pre, h1.1, hq't]
        · rw [ih t' ht' hsplit.2] at h1; cases h1

/-- A pass for another marker pattern cannot introduce a boundary
occurrence of `q`. -/
theorem repl_keep_no_occB (m mq : Char) (p' r' q' : List Char) (useB : Bool)
    (hmq' : m ∉ q')
    (hqrep : occ (mq :: q') (m :: r') = false)
    (hrq : pre (m :: r') (mq :: q') = false)
    (hmqr : mq ∉ r') (hmw : wordChar m = false) :
    ∀ n t, t.length ≤ n → occB (mq :: q') t = false →
      occB (mq :: q') (repl (m :: p') (m :: r') useB t) = false := by
  intro n
  induction n with
  | zero =>
    intro t ht h
    have : t = [] := List.eq_nil_of_length_eq_zero (Nat.le_zero.mp ht)
    subst this
    rwa [repl_nil]
  | succ n ih =>
    intro t ht h
    cases t with
    | nil => rwa [repl_nil]
    | cons c t' =>
      have ht' : t'.length ≤ n := by simpa using Nat.succ_le_succ_iff.mp ht
      have hlen : (t'.drop ((m :: p').length - 1)).length ≤ n :=
        le_trans (by rw [List.length_drop]; omega) ht'
      have htail : occB (mq :: q') t' = false := by
        by_contra hb
        rw [Bool.eq_false_iff] at h
        exact h (occB_cons c (Bool.not_eq_false _ |>.mp hb))
      by_cases hm : matchAt (m :: p') useB (c :: t') = true
      · rw [repl_cons_pos _ _ hm, Bool.eq_false_iff]
        intro hocc
        have hq2 : occB (mq :: q') (t'.drop ((m :: p').length - 1)) = false := by
          by_contra hb
          rw [Bool.eq_false_iff] at h
          apply h
          rw [match_decomp hm]
          exact occB_append_right _ (Bool.not_eq_false _ |>.mp hb)
        rcases occB_append_cases hocc with h1 | h1 | ⟨q₁, q₂, hq, hq1ne, hq2ne, ⟨w, hw⟩, hq2p⟩
        · rw [hqrep] at h1; cases h1
        · rw [ih _ hlen hq2] at h1; cases h1
        · obtain ⟨x, rfl⟩ : ∃ x, q₁ = mq :: x := by
            cases q₁ with
            | nil => exact absurd rfl hq1ne
            | cons b q₁' =>
              obtain ⟨hb, -⟩ : mq = b ∧ q' = q₁' ++ q₂ := by simpa using hq
              exact ⟨q₁', by rw [hb]⟩
          rcases suffix_cases hw rfl with hq₁ | hmem
          · rw [hq₁] at hq
            have hq'' : pre (m :: r') (mq :: q') = true := (pre_iff _ _).mpr ⟨q₂, hq⟩
            rw [hrq] at hq''; cases hq''
          · exact hmqr hmem
      · rw [repl_cons_neg _ _ hm, Bool.eq_false_iff]
        intro hocc
        have h2 : (pre (mq :: q') (c :: repl (m :: p') (m :: r') useB t') &&
              bOkB ((c :: repl (m :: p') (m :: r') useB t').drop (mq :: q').length)) = true ∨
            occB (mq :: q') (repl (m :: p') (m :: r') useB t') = true := by
          simpa [occB] using hocc
        rcases h2 with h1 | h1
        · rw [Bool.and_eq_true] at h1
          obtain ⟨hpre1, hbnd1⟩ := h1
          simp only [pre, Bool.and_eq_true, beq_iff_eq] at hpre1
          have hq't : pre q' t' = true :=
            pre_repl_out m p' r' useB n t' q' ht' hmq' hpre1.2
          have hcopy : repl (m :: p') (m :: r') useB t' =
              q' ++ repl (m :: p') (m :: r') useB (t'.drop q'.length) :=
            repl_copy_prefix m p' (m :: r') useB n t' q' ht' hmq' hq't
          have hbnd2 : bOkB (t'.drop q'.length) = true := by
            apply bOkB_of_repl_bOkB m p' (m :: r') useB hmw
            have heq : (c :: repl (m :: p') (m :: r') useB t').drop (mq :: q').length =
                repl (m :: p') (m :: r') useB (t'.drop q'.length) := by
              rw [List.length_cons, List.drop_succ_cons, hcopy, List.drop_left]
            rwa [heq] at hbnd1
          rw [Bool.eq_false_iff] at h
          apply h
          simp only [occB, Bool.or_eq_true, Bool.and_eq_true, List.length_cons,
            List.drop_succ_cons]
          exact Or.inl ⟨by simp [pre, hpre1.1, hq't], hbnd2⟩
        · rw [ih t' ht' htail] at h1; cases h1

/-- The pass for a pattern inserts its replacement wherever the pattern
occurred (plain mode). -/
theorem repl_creates (m : Char) (p' r' : List Char) :
    ∀ n t, t.length ≤ n → occ (m :: p') t = true →
      occ (m :: r') (repl (m :: p') (m :: r') false t) = true := by
  intro n
  induction n with
  | zero =>
    intro t ht h
    have : t = [] := List.eq_nil_of_length_eq_zero (Nat.le_zero.mp ht)
    subst this
    cases h
  | succ n ih =>
    intro t ht h
    cases t with
    | nil => cases h
    | cons c t' =>
      have ht' : t'.length ≤ n := by simpa using Nat.succ_le_succ_iff.mp ht
      by_cases hm : matchAt (m :: p') false (c :: t') = true
      · rw [repl_cons_pos _ _ hm]
        exact occ_of_pre ((pre_iff _ _).mpr ⟨_, rfl⟩)
      · rw [repl_cons_neg _ _ hm]
        have h2 : pre (m :: p') (c :: t') = true ∨ occ (m :: p') t' = true := by
          simpa [occ] using h
        rcases h2 with h1 | h1
        · exact absurd (by rw [matchAt_plain]; exact h1) hm
        · exact occ_cons c (ih t' ht' h1)

/-- The pass for a pattern inserts its replacement wherever the pattern had
a boundary occurrence (boundary mode). -/
theorem repl_creates_bound (m : Char) (p' r' : List Char) :
    ∀ n t, t.length ≤ n → occB (m :: p') t = true →
      occ (m :: r') (repl (m :: p') (m :: r') true t) = true := by
  intro n
  induction n with
  | zero =>
    intro t ht h
    have : t = [] := List.eq_nil_of_length_eq_zero (Nat.le_zero.mp ht)
    subst this
    simp [occB, pre] at h
  | succ n ih =>
    intro t ht h
    cases t with
    | nil => simp [occB, pre] at h
    | cons c t' =>
      have ht' : t'.length ≤ n := by simpa using Nat.succ_le_succ_iff.mp ht
      by_cases hm : matchAt (m :: p') true (c :: t') = true
      · rw [repl_cons_pos _ _ hm]
        exact occ_of_pre ((pre_iff _ _).mpr ⟨_, rfl⟩)
      · rw [repl_cons_neg _ _ hm]
        have h2 : (pre (m :: p') (c :: t') &&
              bOkB ((c :: t').drop (m :: p').length)) = true ∨
            occB (m :: p') t' = true := by
          simpa [occB] using h
        rcases h2 with h1 | h1
        · exact absurd (by rw [matchAt_bound]; exact h1) hm
        · exact occ_cons c (ih t' ht' h1)

/-- A pass for another marker pattern preserves plain occurrences of `q`. -/
theorem repl_keep_occ (m mq : Char) (p' r' q' : List Char) (useB : Bool)
    (hqp : occ (mq :: q') (m :: p') = false)
    (hpq : pre (m :: p') (mq :: q') = false)
    (hmq' : m ∉ q') (hmqp : mq ∉ p') :
    ∀ n t, t.length ≤ n → occ (mq :: q') t = true →
      occ (mq :: q') (repl (m :: p') (m :: r') useB t) = true := by
  intro n
  induction n with
  | zero =>
    intro t ht h
    have : t = [] := List.eq_nil_of_length_eq_zero (Nat.le_zero.mp ht)
    subst this
    cases h
  | succ n ih =>
    intro t ht h
    cases t with
    | nil => cases h
    | cons c t' =>
      have ht' : t'.length ≤ n := by simpa using Nat.succ_le_succ_iff.mp ht
      have hlen : (t'.drop ((m :: p').length - 1)).length ≤ n :=
        le_trans (by rw [List.length_drop]; omega) ht'
      by_cases hm : matchAt (m :: p') useB (c :: t') = true
      · rw [repl_cons_pos _ _ hm]
        have hsp : occ (mq :: q') ((m :: p') ++ t'.drop ((m :: p').length - 1)) = true := by
          rw [← match_decomp hm]; exact h
        rcases occ_append_cases hsp with h1 | h1 | ⟨q₁, q₂, hq, hq1ne, hq2ne, ⟨w, hw⟩, hq2p⟩
        · rw [hqp] at h1; cases h1
        · exact occ_append_right _ (ih _ hlen h1)
        · obtain ⟨x, rfl⟩ : ∃ x, q₁ = mq :: x := by
            cases q₁ with
            | nil => exact absurd rfl hq1ne
            | cons b q₁' =>
              obtain ⟨hb, -⟩ : mq = b ∧ q' = q₁' ++ q₂ := by simpa using hq
              exact ⟨q₁', by rw [hb]⟩
          rcases suffix_cases hw rfl with hq₁ | hmem
          · exfalso
            rw [hq₁] at hq
            have hq'' : pre (m :: p') (mq :: q') = true := (pre_iff _ _).mpr ⟨q₂, hq⟩
            rw [hpq] at hq''; cases hq''
          · exact absurd hmem hmqp
      · rw [repl_cons_neg _ _ hm]
        have h2 : pre (mq :: q') (c :: t') = true ∨ occ (mq :: q') t' = true := by
          simpa [occ] using h
        rcases h2 with h1 | h1
        · simp only [pre, Bool.and_eq_true, beq_iff_eq] at h1
          have hq'R : pre q' (repl (m :: p') (m :: r') useB t') = true :=
            pre_repl_in m p' (m :: r') useB n t' q' ht' hmq' h1.2
          apply occ_of_pre
          simp [pre, h1.1, hq'R]
        · exact occ_cons c (ih t' ht' h1)

/-- A pass for another marker pattern preserves boundary occurrences of
`q`. -/
theorem repl_keep_occB (m mq : Char) (p' r' q' : List Char) (useB : Bool)
    (hqp : occ (mq :: q') (m :: p') = false)
    (hpq : pre (m :: p') (mq :: q') = false)
    (hmq' : m ∉ q') (hmqp : mq ∉ p') (hmw : wordChar m = false) :
    ∀ n t, t.length ≤ n → occB (mq :: q') t = true →
      occB (mq :: q') (repl (m :: p') (m :: r') useB t) = true := by
  intro n
  induction n with
  | zero =>
    intro t ht h
    have : t = [] := List.eq_nil_of_length_eq_zero (Nat.le_zero.mp ht)
    subst this
    simp [occB, pre] at h
  | succ n ih =>
    intro t ht h
    cases t with
    | nil => simp [occB, pre] at h
    | cons c t' =>
      have ht' : t'.length ≤ n := by simpa using Nat.succ_le_succ_iff.mp ht
      have hlen : (t'.drop ((m :: p').length - 1)).length ≤ n :=
        le_trans (by rw [List.length_drop]; omega) ht'
      by_cases hm : matchAt (m :: p') useB (c :: t') = true
      · rw [repl_cons_pos _ _ hm]
        have hsp : occB (mq :: q') ((m :: p') ++ t'.drop ((m :: p').length - 1)) = true := by
          rw [← match_decomp hm]; exact h
        rcases occB_append_cases hsp with h1 | h1 | ⟨q₁, q₂, hq, hq1ne, hq2ne, ⟨w, hw⟩, hq2p⟩
        · rw [hqp] at h1; cases h1
        · exact occB_append_right _ (ih _ hlen h1)
        · obtain ⟨x, rfl⟩ : ∃ x, q₁ = mq :: x := by
            cases q₁ with
            | nil => exact absurd rfl hq1ne
            | cons b q₁' =>
              obtain ⟨hb, -⟩ : mq = b ∧ q' = q₁' ++ q₂ := by simpa using hq
              exact ⟨q₁', by rw [hb]⟩
          rcases suffix_cases hw rfl with hq₁ | hmem
          · exfalso
            rw [hq₁] at hq
            have hq'' : pre (m :: p') (mq :: q') = true := (pre_iff _ _).mpr ⟨q₂, hq⟩
            rw [hpq] at hq''; cases hq''
          · exact absurd hmem hmqp
      · rw [repl_cons_neg _ _ hm]
        have h2 : (pre (mq :: q') (c :: t') &&
              bOkB ((c :: t').drop (mq :: q').length)) = true ∨
            occB (mq :: q') t' = true := by
          simpa [occB] using h
        rcases h2 with h1 | h1
        · rw [Bool.and_eq_true] at h1
          obtain ⟨hpre1, hbnd1⟩ := h1
          simp only [pre, Bool.and_eq_true, beq_iff_eq] at hpre1
          have hq'R : pre q' (repl (m :: p') (m :: r') useB t') = true :=
            pre_repl_in m p' (m :: r') useB n t' q' ht' hmq' hpre1.2
          have hcopy : repl (m :: p') (m :: r') useB t' =
              q' ++ repl (m :: p') (m :: r') useB (t'.drop q'.length) :=
            repl_copy_prefix m p' (m :: r') useB n t' q' ht' hmq' hpre1.2
          have hbnd2 : bOkB ((repl (m :: p') (m :: r') useB t').drop q'.length) = true := by
            rw [hcopy, List.drop_left]
            apply repl_bOkB m p' r' useB hmw
            rwa [List.length_cons, List.drop_succ_cons] at hbnd1
          simp only [occB, Bool.or_eq_true, Bool.and_eq_true, List.length_cons,
            List.drop_succ_cons]
          exact Or.inl ⟨by simp [pre, hpre1.1, hq'R], hbnd2⟩
        · exact occB_cons c (ih t' ht' h1)

/-! ### Fuel-free wrappers for the `repl` lemmas -/

theorem repl_no_occF {m : Char} {p' r' : List Char}
    (hmp : m ∉ p') (hmr : m ∉ r')
    (hpr : pre (m :: p') (m :: r') = false) (hrp : pre (m :: r') (m :: p') = false)
    (t : List Char) :
    occ (m :: p') (repl (m :: p') (m :: r') false t) = false :=
  repl_no_occ m p' r' hmp hmr hpr hrp t.length t le_rfl

theorem repl_no_occBF {m : Char} {p' r' : List Char}
    (hmp : m ∉ p') (hmr : m ∉ r')
    (hpr : pre (m :: p') (m :: r') = false) (hrp : pre (m :: r') (m :: p') = false)
    (hmw : wordChar m = false) (t : List Char) :
    occB (m :: p') (repl (m :: p') (m :: r') true t) = false :=
  repl_no_occB m p' r' hmp hmr hpr hrp hmw t.length t le_rfl

theorem repl_keep_no_occF {m mq : Char} {p' r' q' : List Char} {useB : Bool}
    (hmq' : m ∉ q') (hqrep : occ (mq :: q') (m :: r') = false)
    (hrq : pre (m :: r') (mq :: q') = false) (hmqr : mq ∉ r')
    {t : List Char} (h : occ (mq :: q') t = false) :
    occ (mq :: q') (repl (m :: p') (m :: r') useB t) = false :=
  repl_keep_no_occ m mq p' r' q' useB hmq' hqrep hrq hmqr t.length t le_rfl h

theorem repl_keep_no_occBF {m mq : Char} {p' r' q' : List Char} {useB : Bool}
    (hmq' : m ∉ q') (hqrep : occ (mq :: q') (m :: r') = false)
    (hrq : pre (m :: r') (mq :: q') = false) (hmqr : mq ∉ r')
    (hmw : wordChar m = false)
    {t : List Char} (h : occB (mq :: q') t = false) :
    occB (mq :: q') (repl (m :: p') (m :: r') useB t) = false :=
  repl_keep_no_occB m mq p' r' q' useB hmq' hqrep hrq hmqr hmw t.length t le_rfl h

theorem repl_createsF {m : Char} {p' r' : List Char} {t : List Char}
    (h : occ (m :: p') t = true) :
    occ (m :: r') (repl (m :: p') (m :: r') false t) = true :=
  repl_creates m p' r' t.length t le_rfl h

theorem repl_creates_boundF {m : Char} {p' r' : List Char} {t : List Char}
    (h : occB (m :: p') t = true) :
    occ (m :: r') (repl (m :: p') (m :: r') true t) = true :=
  repl_creates_bound m p' r' t.length t le_rfl h

theorem repl_keep_occF {m mq : Char} {p' r' q' : List Char} {useB : Bool}
    (hqp : occ (mq :: q') (m :: p') = false)
    (hpq : pre (m :: p') (mq :: q') = false)
    (hmq' : m ∉ q') (hmqp : mq ∉ p')
    {t : List Char} (h : occ (mq :: q') t = true) :
    occ (mq :: q') (repl (m :: p') (m :: r') useB t) = true :=
  repl_keep_occ m mq p' r' q' useB hqp hpq hmq' hmqp t.length t le_rfl h

theorem repl_keep_occBF {m mq : Char} {p' r' q' : List Char} {useB : Bool}
    (hqp : occ (mq :: q') (m :: p') = false)
    (hpq : pre (m :: p') (mq :: q') = false)
    (hmq' : m ∉ q') (hmqp : mq ∉ p') (hmw : wordChar m = false)
    {t : List Char} (h : occB (mq :: q') t = true) :
    occB (mq :: q') (repl (m :: p') (m :: r') useB t) = true :=
  repl_keep_occB m mq p' r' q' useB hqp hpq hmq' hmqp hmw t.length t le_rfl h

/-! ## Regex scanners used by the validators

Each models one `re.findall` call: a left-to-right, non-overlapping scan.
The workers are fuelled for structural recursion; one unit of fuel per
consumed character always suffices. -/

/-- Worker for `re.findall(r':([A-Za-z][A-Za-z0-9_]*)', s)` (and, with a
different `first` class, `r':([A-Za-z_][A-Za-z0-9_]*)'`). -/
def tokenScanA (first : Char → Bool) : Nat → List Char → List (List Char)
  | 0, _ => []
  | _ + 1, [] => []
  | f + 1, c :: t =>
    if c == ':' then
      match t with
      | [] => []
      | d :: _ =>
        if first d then
          (t.takeWhile wordChar) :: tokenScanA first f (t.drop (t.takeWhile wordChar).length)
        else
          tokenScanA first f t
    else
      tokenScanA first f t

/-- Worker for `re.findall(r'\[:([A-Za-z_][A-Za-z0-9_]*)\]', s)`. -/
def relScanA : Nat → List Char → List (List Char)
  | 0, _ => []
  | _ + 1, [] => []
  | f + 1, c :: t =>
    if c == '[' then
      match t with
      | ':' :: u =>
        match u with
        | e :: _ =>
          if alphaChar e || (e == '_') then
            match u.drop (u.takeWhile wordChar).length with
            | ']' :: rest => (u.takeWhile wordChar) :: relScanA f rest
            | _ => relScanA f t
          else relScanA f t
        | [] => relScanA f t
      | _ => relScanA f t
    else relScanA f t

/-- Character class `[a-zA-Z0-9_.]` of the procedure-name group. -/
def callClass (c : Char) : Bool :=
  alphaChar c || (('0' ≤ c) && (c ≤ '9')) || (c == '_') || (c == '.')

/-- Worker for `re.findall(r'CALL\s+([a-zA-Z0-9_.]+)', s, re.IGNORECASE)`. -/
def callScanA : Nat → List Char → List (List Char)
  | 0, _ => []
  | _ + 1, [] => []
  | f + 1, c :: t =>
    if pre ['C', 'A', 'L', 'L'] (pyUpper (c :: t)) then
      match (t.drop 3).takeWhile wsChar with
      | [] => callScanA f t
      | _ :: _ =>
        match ((t.drop 3).dropWhile wsChar).takeWhile callClass with
        | [] => callScanA f t
        | run => run :: callScanA f (((t.drop 3).dropWhile wsChar).drop run.length)
    else callScanA f t

/-- Worker for `re.findall(r'(\w+)\.(\w+)', s)`. -/
def propScanA : Nat → List Char → List (List Char × List Char)
  | 0, _ => []
  | _ + 1, [] => []
  | f + 1, c :: t =>
    if wordChar c then
      match (c :: t).drop ((c :: t).takeWhile wordChar).length with
      | '.' :: u =>
        match u with
        | e :: _ =>
          if wordChar e then
            ((c :: t).takeWhile wordChar, u.takeWhile wordChar) ::
              propScanA f (u.drop (u.takeWhile wordChar).length)
          else propScanA f ('.' :: u)
        | [] => []
      | _ => propScanA f ((c :: t).drop ((c :: t).takeWhile wordChar).length)
    else propScanA f t

def labelScan (s : List Char) : List (List Char) := tokenScanA alphaChar s.length s

def labelScanU (s : List Char) : List (List Char) :=
  tokenScanA (fun d => alphaChar d || (d == '_')) s.length s

def relScan (s : List Char) : List (List Char) := relScanA s.length s

def callScan (s : List Char) : List (List Char) := callScanA s.length s

def propScan (s : List Char) : List (List Char × List Char) := propScanA s.length s

/-- `re.search` of a pattern that is a sequence of single-character classes
separated by `.*`: succeeds iff the classes match some subsequence (in
order).  `.*` does not cross newlines, so the callers search line by line. -/
def seqFind : List (Char → Bool) → List Char → Bool
  | [], _ => true
  | _ :: _, [] => false
  | p :: ps, c :: t => if p c then seqFind ps t else seqFind (p :: ps) t

/-- Split into `\n`-separated lines. -/
def toLines (s : List Char) : List (List Char) := s.splitOn '\n'

def quoteC (c : Char) : Bool := (c == '"') || (c == '\'')

/-- `re.search(pattern, s, re.IGNORECASE)` for the three suspicious property
patterns of `CypherValidator.validate_properties` (validators.py): the dot
does not match a newline, so the subsequence must lie inside one line. -/
def seqSearch (ps : List (Char → Bool)) (s : List Char) : Bool :=
  (toLines s).any (seqFind ps)

/-- Decidable equality for `Except`, used to settle concrete runs of the
validators by `decide`. -/
instance {ε α : Type} [DecidableEq ε] [DecidableEq α] : DecidableEq (Except ε α) := fun x y =>
  match x, y with
  | .ok a, .ok b =>
    if h : a = b then .isTrue (by rw [h]) else .isFalse (fun hc => by cases hc; exact h rfl)
  | .error a, .error b =>
    if h : a = b then .isTrue (by rw [h]) else .isFalse (fun hc => by cases hc; exact h rfl)
  | .ok _, .error _ => .isFalse (fun hc => by cases hc)
  | .error _, .ok _ => .isFalse (fun hc => by cases hc)

/-! ## Embedding of `research_graph_rag/utils/validators.py` (`CypherValidator`) -/

namespace V

/-- The rejection reasons raised as `ValidationError`, tagged by
`validation_type` and `invalid_value`. -/
inductive VError where
  | emptyQuery : VError
  | forbiddenKeyword (kw : String) : VError
  | procedureNotAllowed (p : String) : VError
  | invalidLabel (l : String) : VError
  | invalidRelationship (r : String) : VError
  | suspiciousProperty (patternIndex : Nat) : VError
  | badStructure (detail : String) : VError
  deriving DecidableEq, Repr

/-- `CypherValidator.FORBIDDEN_KEYWORDS` (a Python `set`; listed in source
order — the theorems below never depend on iteration order). -/
def FORBIDDEN_KEYWORDS : List String :=
  ["CREATE", "MERGE", "DELETE", "REMOVE", "SET", "DROP",
   "DETACH DELETE", "FOREACH", "LOAD CSV"]

/-- `CypherValidator.ALLOWED_PROCEDURES`. -/
def ALLOWED_PROCEDURES : List String :=
  ["gds.", "db.labels", "db.relationshipTypes", "db.propertyKeys",
   "db.schema", "dbms.components"]

/-- `CypherValidator.VALID_LABELS`. -/
def VALID_LABELS : List String := ["Author", "Work", "Topic"]

/-- `CypherValidator.VALID_RELATIONSHIPS`. -/
def VALID_RELATIONSHIPS : List String :=
  ["WORK_AUTHORED_BY", "WORK_HAS_TOPIC", "RELATED_TO",
   "COLLABORATED_WITH", "SHARES_TOPIC_WITH"]

/-- `CypherValidator._validate_procedure_calls`. -/
def validateProcedureCalls (s : List Char) : Except VError Unit :=
  match (callScan s).find?
      (fun call => !(ALLOWED_PROCEDURES.any (fun p => pre p.data (pyLower call)))) with
  | some call => .error (.procedureNotAllowed (String.mk call))
  | none => .ok ()

/-- `CypherValidator.assert_read_only`: uppercase the query, reject on any
forbidden keyword substring, then vet `CALL` procedures. -/
def assertReadOnly (s : List Char) : Except VError Unit :=
  match FORBIDDEN_KEYWORDS.find? (fun kw => occ kw.data (pyUpper s)) with
  | some kw => .error (.forbiddenKeyword kw)
  | none =>
    if occ "CALL ".data (pyUpper s) then validateProcedureCalls s else .ok ()

/-- `CypherValidator.validate_labels`: every `:Name` token must be a valid
node label (the scan also picks up relationship tokens `[:REL]`). -/
def validateLabels (s : List Char) : Except VError Unit :=
  match (labelScan s).find? (fun l => !(VALID_LABELS.contains (String.mk l))) with
  | some l => .error (.invalidLabel (String.mk l))
  | none => .ok ()

/-- `CypherValidator.validate_relationships`. -/
def validateRelationships (s : List Char) : Except VError Unit :=
  match (relScan s).find? (fun r => !(VALID_RELATIONSHIPS.contains (String.mk r))) with
  | some r => .error (.invalidRelationship (String.mk r))
  | none => .ok ()

/-- `CypherValidator.validate_properties` (validators.py): three suspicious
injection patterns; note it does not check property names. -/
def validateProperties (s : List Char) : Except VError Unit :=
  if seqSearch [quoteC, quoteC, (· == '+'), quoteC] s then
    .error (.suspiciousProperty 1)
  else if seqSearch [quoteC, (· == '$'), quoteC] s then
    .error (.suspiciousProperty 2)
  else if seqSearch [quoteC, (· == '{'), (· == '}'), quoteC] s then
    .error (.suspiciousProperty 3)
  else .ok ()

/-- The cleaning stage of `CypherValidator.prepare_cypher`: strip, remove
line and block comments, collapse whitespace. -/
def cleanCypher (s : List Char) : List Char :=
  collapseWs (removeBlockComments (removeLineComments (pyStrip s)))

/-- `CypherValidator.prepare_cypher`. -/
def prepareCypher (s : List Char) : Except VError (List Char) :=
  if (pyStrip s).isEmpty then .error .emptyQuery
  else
    let cleaned := cleanCypher s
    (assertReadOnly cleaned).map (fun _ => cleaned)

/-- `CypherValidator.validate_query_structure`. -/
def validateQueryStructure (s : List Char) : Except VError Unit :=
  let up := pyUpper s
  if !(s.count '(' == s.count ')') then
    .error (.badStructure "parentheses")
  else if !(s.count '[' == s.count ']') then
    .error (.badStructure "brackets")
  else if !(s.count '\x7b' == s.count '\x7d') then
    .error (.badStructure "braces")
  else if !(occ "RETURN".data up || occ "YIELD".data up) && !(occ "CALL".data up) then
    .error (.badStructure "missing RETURN or YIELD")
  else .ok ()

/-- `CypherValidator.validate_full`: prepare, then structure and property
checks, then — unless `'CALL gds.'` occurs in the uppercased query, which
can never happen — label and relationship checks. -/
def validateFull (s : List Char) : Except VError (List Char) := do
  let prepared ← prepareCypher s
  let _ ← validateQueryStructure prepared
  let _ ← validateProperties prepared
  if occ "CALL gds.".data (pyUpper prepared) then
    pure prepared
  else do
    let _ ← validateLabels prepared
    let _ ← validateRelationships prepared
    pure prepared

end V

/-! ## Embedding of the `research_query_agent.py` validation system -/

namespace RQ

/-- The `ValueError` rejections raised by the top-level `CypherValidator`. -/
inductive RQError where
  | forbiddenKeyword (kw : String) : RQError
  | unknownProperty (p : String) : RQError
  | unknownLabel (l : String) : RQError
  deriving DecidableEq, Repr

/-- Module-level `FORBIDDEN_KEYWORDS` of research_query_agent.py. -/
def FORBIDDEN_KEYWORDS : List String :=
  ["CREATE", "MERGE", "DELETE", "SET", "DROP", "REMOVE", "CALL", "LOAD CSV", "APOC"]

/-- Module-level `SCHEMA`: node kind → allowed properties. -/
def SCHEMA : List (String × List String) :=
  [("Author", ["id", "name", "display_name"]),
   ("Work", ["id", "title", "type", "publication_date"]),
   ("Topic", ["id", "display_name", "score"])]

/-- `any(prop in props for props in SCHEMA.values())`: membership in the
union of all node kinds' allowed properties. -/
def knownProp (p : String) : Bool := SCHEMA.any (fun kv => kv.2.contains p)

/-- Module-level `PROPERTY_ALIASES`, in insertion (iteration) order. -/
def PROPERTY_ALIASES : List (String × String) :=
  [("publication_year", "publication_date"),
   ("pub_year", "publication_date"),
   ("year", "publication_date")]

/-- Module-level `RELATIONSHIP_CANONICAL`, in insertion (iteration) order. -/
def RELATIONSHIP_CANONICAL : List (String × String) :=
  [("WROTE", "WORK_AUTHORED_BY"),
   ("AUTHORED", "WORK_AUTHORED_BY"),
   ("AUTHORED_BY", "WORK_AUTHORED_BY"),
   ("HAS_TOPIC", "WORK_HAS_TOPIC"),
   ("TOPIC_IN", "WORK_HAS_TOPIC")]

/-- Module-level `VALID_LABELS`. -/
def VALID_LABELS : List String := ["Author", "Work", "Topic"]

/-- `CypherValidator.assert_read_only` (research_query_agent.py). -/
def assertReadOnly (s : List Char) : Except RQError Unit :=
  match FORBIDDEN_KEYWORDS.find? (fun kw => occ kw.data (pyUpper s)) with
  | some kw => .error (.forbiddenKeyword kw)
  | none => .ok ()

/-- The loop body of `validate_properties`: reject the first
`variable.property` access whose property is outside the schema union. -/
def checkProps : List (List Char × List Char) → Except RQError Unit
  | [] => .ok ()
  | a :: rest =>
    if knownProp (String.mk a.2) then checkProps rest
    else .error (.unknownProperty (String.mk a.2))

/-- `CypherValidator.validate_properties` (research_query_agent.py). -/
def validateProperties (s : List Char) : Except RQError Unit :=
  checkProps (propScan s)

/-- `CypherValidator.normalize_properties`: for each alias, in order,
`re.sub(rf"\.{bad}\b", f".{good}", cypher)`. -/
def normalizeProperties (s : List Char) : List Char :=
  PROPERTY_ALIASES.foldl
    (fun acc pr => repl ('.' :: pr.1.data) ('.' :: pr.2.data) true acc) s

/-- `CypherValidator.normalize_relationships`: for each alias, in order,
`cypher.replace(f":{bad}", f":{good}")`. -/
def normalizeRelationships (s : List Char) : List Char :=
  RELATIONSHIP_CANONICAL.foldl
    (fun acc pr => repl (':' :: pr.1.data) (':' :: pr.2.data) false acc) s

/-- `CypherValidator.validate_labels` (research_query_agent.py): every
`:Name` token must be a valid label or a canonical relationship name. -/
def validateLabels (s : List Char) : Except RQError Unit :=
  match (labelScanU s).find?
      (fun l => !(VALID_LABELS.contains (String.mk l)) &&
        !((RELATIONSHIP_CANONICAL.map Prod.snd).contains (String.mk l))) with
  | some l => .error (.unknownLabel (String.mk l))
  | none => .ok ()

/-- `CypherValidator.prepare_cypher` (research_query_agent.py). -/
def prepareCypher (s : List Char) : Except RQError (List Char) := do
  let _ ← assertReadOnly s
  let s2 := normalizeRelationships s
  let _ ← validateLabels s2
  pure s2

/-- The validation pipeline of the `neo4j_query_tool` in
research_query_agent.py (its "full validation"): `prepare_cypher` followed
by `validate_properties` on the prepared query. -/
def fullValidation (s : List Char) : Except RQError (List Char) := do
  let safe ← prepareCypher s
  let _ ← validateProperties safe
  pure safe

end RQ

/-! ## Embedding of `research_graph_rag/agents/network_agent.py`
(`NetworkAnalysisAgent` result processing and orchestration)

A backend record is an untyped dict in the source; here it is a typed view
holding the keys the agent reads.  A missing key and an explicit `null`
value both read as `none` (Python `dict.get` returns `None` for both at
every site used below).  Python floats become `ℚ`. -/

namespace NA

/-- Typed view of one backend record. -/
structure Rec where
  title : Option String := none
  degree_centrality : Option ℚ := none
  betweenness_centrality : Option ℚ := none
  closeness_centrality : Option ℚ := none
  pagerank_score : Option ℚ := none
  community_id : Option Int := none
  totalCost : Option ℚ := none
  similarity_score : Option ℚ := none
  score : Option ℚ := none
  confidence_score : Option ℚ := none
  deriving DecidableEq, Repr

/-- `record.get(key)` for the numeric keys read by the agent. -/
def recGet (r : Rec) (k : String) : Option ℚ :=
  match k with
  | "degree_centrality" => r.degree_centrality
  | "betweenness_centrality" => r.betweenness_centrality
  | "closeness_centrality" => r.closeness_centrality
  | "pagerank_score" => r.pagerank_score
  | "totalCost" => r.totalCost
  | "similarity_score" => r.similarity_score
  | "score" => r.score
  | "confidence_score" => r.confidence_score
  | _ => none

/-- One iteration of the weighted-metric loop in
`_calculate_composite_confidence`: accumulate `(score, total_weight)`. -/
def confStep (w : ℚ) (v : Option ℚ) (acc : ℚ × ℚ) : ℚ × ℚ :=
  match v with
  | some x => if 0 < x then (acc.1 + w * x, acc.2 + w) else acc
  | none => acc

/-- `NetworkAnalysisAgent._calculate_composite_confidence`, with the weights
dict iterated in insertion order. -/
def calculateCompositeConfidence (r : Rec) : ℚ :=
  let acc :=
    confStep 0.3 r.pagerank_score
      (confStep 0.2 r.closeness_centrality
        (confStep 0.3 r.betweenness_centrality
          (confStep 0.2 r.degree_centrality (0, 0))))
  let normalized := if 0 < acc.2 then acc.1 / acc.2 else 0
  let boosted :=
    match r.community_id with
    | some _ => normalized * 1.2
    | none => normalized
  min boosted 1

/-- `NetworkAnalysisAgent._get_main_metric`. -/
def getMainMetric (r : Rec) (atype : String) : ℚ :=
  let key :=
    if atype == "centrality" then "pagerank_score"
    else if atype == "community" then "pagerank_score"
    else if atype == "shortest_path" then "totalCost"
    else if atype == "similarity" then "similarity_score"
    else "score"
  let value := (recGet r key).getD 0
  if atype == "shortest_path" then
    if 0 < value then 1 / (1 + value) else 0
  else value

/-- The per-record confidence assignment of `_process_network_results`. -/
def assignConfidence (atype : String) (r : Rec) : Rec :=
  if atype == "comprehensive" then
    { r with confidence_score := some (calculateCompositeConfidence r) }
  else if atype == "community" then
    { r with confidence_score := some (r.confidence_score.getD 0) }
  else
    { r with confidence_score := some (getMainMetric r atype) }

/-- The sort key `lambda x: x.get('confidence_score', 0)`. -/
def confKey (r : Rec) : ℚ := r.confidence_score.getD 0

/-- Insert into a descending-sorted list, after every earlier element of
greater-or-equal key: the stable insertion step matching Python's stable
`list.sort(key=..., reverse=True)`. -/
def insDesc (key : Rec → ℚ) (a : Rec) : List Rec → List Rec
  | [] => [a]
  | b :: l => if key b ≤ key a then a :: b :: l else b :: insDesc key a l

/-- Stable descending sort by key (insertion sort; stable sorts by the same
key agree, so this is `list.sort(key=..., reverse=True)`). -/
def sortDesc (key : Rec → ℚ) : List Rec → List Rec
  | [] => []
  | a :: l => insDesc key a (sortDesc key l)

/-- The processed, confidence-ranked record list of
`_process_network_results` for one analysis type. -/
def processedRecords (atype : String) (records : List Rec) : List Rec :=
  sortDesc confKey (records.map (assignConfidence atype))

/-- `NetworkAnalysisAgent._get_metrics_list`. -/
def getMetricsList (atype : String) : List String :=
  if atype == "comprehensive" then
    ["degree_centrality", "betweenness_centrality", "closeness_centrality",
     "pagerank_score", "community_id"]
  else if atype == "community" then
    ["pagerank_score", "community_id", "same_community"]
  else if atype == "centrality" then ["pagerank_score"]
  else if atype == "shortest_path" then ["totalCost", "path_length"]
  else if atype == "similarity" then ["similarity_score"]
  else ["score"]

/-- The value stored at `results[analysis_type]`: an error marker, a
"no results" message, or the processed ranked payload. -/
inductive ProcOut where
  | errorMarker (e : String) : ProcOut
  | noResults : ProcOut
  | results (count : Nat) (records : List Rec) (analysisType : String)
      (metricsIncluded : List String) : ProcOut
  deriving DecidableEq, Repr

/-- `NetworkAnalysisAgent._process_network_results`.  The argument is the
backend result: an error payload or a record list. -/
def processNetworkResults (result : Except String (List Rec)) (atype : String) : ProcOut :=
  match result with
  | .error e => .errorMarker e
  | .ok [] => .noResults
  | .ok records =>
    let processed := processedRecords atype records
    .results processed.length processed atype (getMetricsList atype)

/-- The per-kind body of the `for analysis_type in analysis_types` loop in
`find_related_by_network_analysis`: a raised backend exception is caught and
becomes an error marker; otherwise the records are processed.  The backend
(`_run_analysis_type`, i.e. the GDS query against the database) is abstract:
`.error e` models a raised exception with message `e`. -/
def runKindOutcome (backend : String → Except String (List Rec)) (k : String) : ProcOut :=
  match backend k with
  | .error e => .errorMarker e
  | .ok records => processNetworkResults (.ok records) k

/-- Update of the `results` dict. -/
def updMap (m : String → Option ProcOut) (k : String) (v : ProcOut) :
    String → Option ProcOut :=
  fun x => if x = k then some v else m x

/-- The `results` map built by `find_related_by_network_analysis` once the
graph projection has been ensured: one entry per requested analysis kind,
failures isolated per kind. -/
def findRelatedResults (backend : String → Except String (List Rec))
    (kinds : List String) : String → Option ProcOut :=
  kinds.foldl (fun m k => updMap m k (runKindOutcome backend k)) (fun _ => none)

end NA

/-! ## Reference definition of the composite confidence score (claim C3)

The claim describes the score as a sum over the "active" metrics (present
and strictly positive) divided by the sum of their weights; this second
definition follows that wording, to be compared with the fold performed by
the code. -/

/-- The four weighted metrics of a record, in the order of the `weights`
dict. -/
def specWeights (r : NA.Rec) : List (ℚ × Option ℚ) :=
  [(0.2, r.degree_centrality), (0.3, r.betweenness_centrality),
   (0.2, r.closeness_centrality), (0.3, r.pagerank_score)]

/-- The metrics that are present and strictly greater than 0, paired with
their weights. -/
def activePairs (l : List (ℚ × Option ℚ)) : List (ℚ × ℚ) :=
  l.filterMap (fun wv => wv.2.bind (fun x => if 0 < x then some (wv.1, x) else none))

/-- Reference composite confidence: weighted sum over active metrics divided
by the sum of the active weights (0 if none), boosted by 1.2 for a non-null
community id, clamped to at most 1. -/
def specConfidence (r : NA.Rec) : ℚ :=
  let act := activePairs (specWeights r)
  let total := (act.map Prod.fst).sum
  let base := if 0 < total then ((act.map (fun p => p.1 * p.2)).sum) / total else 0
  let boosted :=
    match r.community_id with
    | some _ => base * 1.2
    | none => base
  min boosted 1

/-- The fold performed by `_calculate_composite_confidence` accumulates
exactly the active weighted sum and the active weight total. -/
theorem foldl_confStep_eq (l : List (ℚ × Option ℚ)) (acc : ℚ × ℚ) :
    l.foldl (fun a wv => NA.confStep wv.1 wv.2 a) acc =
      (acc.1 + ((activePairs l).map (fun p => p.1 * p.2)).sum,
       acc.2 + ((activePairs l).map Prod.fst).sum) := by
  induction l generalizing acc with
  | nil => simp [activePairs]
  | cons wv l ih =>
    obtain ⟨w, v⟩ := wv
    rw [List.foldl_cons, ih]
    cases v with
    | none =>
      simp [NA.confStep, activePairs, List.filterMap_cons]
    | some x =>
      by_cases hx : 0 < x
      · simp only [NA.confStep, if_pos hx, activePairs, List.filterMap_cons,
          Option.some_bind, hx, ite_true, List.map_cons, List.sum_cons]
        rw [Prod.mk.injEq]
        constructor <;> ring
      · simp [NA.confStep, if_neg hx, activePairs, List.filterMap_cons, hx]

/-- `_calculate_composite_confidence` agrees with the reference sum-based
definition on every record. -/
theorem calc_eq_spec (r : NA.Rec) :
    NA.calculateCompositeConfidence r = specConfidence r := by
  unfold NA.calculateCompositeConfidence specConfidence
  rw [show NA.confStep 0.3 r.pagerank_score
        (NA.confStep 0.2 r.closeness_centrality
          (NA.confStep 0.3 r.betweenness_centrality
            (NA.confStep 0.2 r.degree_centrality (0, 0)))) =
      (specWeights r).foldl (fun a wv => NA.confStep wv.1 wv.2 a) (0, 0) from rfl]
  rw [foldl_confStep_eq]
  simp only [zero_add]

/-- The record of the spec's worked example:
`{degree_centrality: 0.5, betweenness_centrality: null,
closeness_centrality: 0.0, pagerank_score: 0.8, community_id: 3}`. -/
def c3Record : NA.Rec :=
  { degree_centrality := some 0.5, betweenness_centrality := none,
    closeness_centrality := some 0, pagerank_score := some 0.8,
    community_id := some 3 }

/-- C3 (counterexample): on the spec's example record the composite
confidence is not 1.0 — it is 0.816 ((0.2·0.5 + 0.3·0.8)/0.5 · 1.2), below
the clamp. -/
theorem claim_C3_counterexample :
    NA.calculateCompositeConfidence c3Record ≠ 1 ∧
    NA.calculateCompositeConfidence c3Record = 102 / 125 := by
  constructor <;>
    norm_num [c3Record, NA.calculateCompositeConfidence, NA.confStep, min_def]

/-- C3 (amended): the composite confidence score of every record equals the
reference definition (weighted sum over present-and-positive metrics divided
by the sum of their weights, 1.2 community boost, clamp at 1); on the spec's
example record its value is 102/125 = 0.816, not 1.0. -/
theorem claim_C3_amended :
    (∀ r : NA.Rec, NA.calculateCompositeConfidence r = specConfidence r) ∧
    NA.calculateCompositeConfidence c3Record = 102 / 125 := by
  refine ⟨calc_eq_spec, ?_⟩
  norm_num [c3Record, NA.calculateCompositeConfidence, NA.confStep, min_def]

/-- A metric that contributes nothing: absent, null, zero or negative. -/
def inactiveMetric : Option ℚ → Bool
  | none => true
  | some x => decide (x ≤ 0)

/-- No weighted metric of the record is present and positive. -/
def noActiveMetric (r : NA.Rec) : Bool :=
  inactiveMetric r.degree_centrality && inactiveMetric r.betweenness_centrality &&
  inactiveMetric r.closeness_centrality && inactiveMetric r.pagerank_score

theorem confStep_inactive {w : ℚ} {v : Option ℚ} (h : inactiveMetric v = true)
    (acc : ℚ × ℚ) : NA.confStep w v acc = acc := by
  cases v with
  | none => rfl
  | some x =>
    simp only [inactiveMetric, decide_eq_true_eq] at h
    simp only [NA.confStep, if_neg (not_lt.mpr h)]

/-- Every weight of an active pair of a record is nonnegative and every
active value is positive. -/
theorem activePairs_specWeights_mem {r : NA.Rec} {p : ℚ × ℚ}
    (hp : p ∈ activePairs (specWeights r)) : 0 ≤ p.1 ∧ 0 < p.2 := by
  simp only [activePairs, List.mem_filterMap] at hp
  obtain ⟨wv, hmem, hbind⟩ := hp
  rcases hv : wv.2 with _ | x
  · rw [hv] at hbind; simp at hbind
  · rw [hv] at hbind
    simp only [Option.some_bind] at hbind
    by_cases hx : 0 < x
    · rw [if_pos hx] at hbind
      cases hbind
      refine ⟨?_, hx⟩
      fin_cases hmem <;> norm_num
    · rw [if_neg hx] at hbind
      exact absurd hbind (by simp)

/-- C4: for every record — metrics present, absent, null, zero or
arbitrarily large — the composite confidence lies in `[0, 1]`; it is exactly
0 when no weighted metric is present and positive; the 1.2 community boost
never pushes it above 1. -/
theorem claim_C4_confidence_bounds (r : NA.Rec) :
    0 ≤ NA.calculateCompositeConfidence r ∧
    NA.calculateCompositeConfidence r ≤ 1 ∧
    (noActiveMetric r = true → NA.calculateCompositeConfidence r = 0) := by
  have hS : 0 ≤ ((activePairs (specWeights r)).map (fun p => p.1 * p.2)).sum := by
    apply List.sum_nonneg
    intro y hy
    obtain ⟨p, hp, rfl⟩ := List.mem_map.mp hy
    obtain ⟨hw, hx⟩ := activePairs_specWeights_mem hp
    exact mul_nonneg hw hx.le
  have hbase : 0 ≤ (if 0 < ((activePairs (specWeights r)).map Prod.fst).sum then
      ((activePairs (specWeights r)).map (fun p => p.1 * p.2)).sum /
        ((activePairs (specWeights r)).map Prod.fst).sum else 0) := by
    split_ifs with h
    · exact div_nonneg hS h.le
    · exact le_refl 0
  refine ⟨?_, ?_, ?_⟩
  · rw [calc_eq_spec]
    unfold specConfidence
    refine le_min ?_ (by norm_num)
    cases hc : r.community_id with
    | none => simpa using hbase
    | some cid =>
      have h12 : (0 : ℚ) ≤ 1.2 := by norm_num
      simpa using mul_nonneg hbase h12
  · rw [calc_eq_spec]
    unfold specConfidence
    exact min_le_right _ _
  · intro hna
    have hd : inactiveMetric r.degree_centrality = true := by
      simp only [noActiveMetric, Bool.and_eq_true] at hna; exact hna.1.1.1
    have hb : inactiveMetric r.betweenness_centrality = true := by
      simp only [noActiveMetric, Bool.and_eq_true] at hna; exact hna.1.1.2
    have hcc : inactiveMetric r.closeness_centrality = true := by
      simp only [noActiveMetric, Bool.and_eq_true] at hna; exact hna.1.2
    have hp : inactiveMetric r.pagerank_score = true := by
      simp only [noActiveMetric, Bool.and_eq_true] at hna; exact hna.2
    unfold NA.calculateCompositeConfidence
    rw [confStep_inactive hd, confStep_inactive hb, confStep_inactive hcc,
      confStep_inactive hp]
    cases r.community_id <;> norm_num [min_def]

/-- C4 witness: a record with a null metric, a zero metric and an absent
metric, evaluated through the theorem. -/
theorem claim_C4_confidence_bounds_witness :
    0 ≤ NA.calculateCompositeConfidence { closeness_centrality := some 0, community_id := some 7 } ∧
    NA.calculateCompositeConfidence { closeness_centrality := some 0, community_id := some 7 } ≤ 1 ∧
    NA.calculateCompositeConfidence { closeness_centrality := some 0, community_id := some 7 } = 0 :=
  ⟨(claim_C4_confidence_bounds _).1, (claim_C4_confidence_bounds _).2.1,
    (claim_C4_confidence_bounds _).2.2 (by decide)⟩

/-! ## Sorting of processed records (claim C5) -/

theorem insDesc_perm (key : NA.Rec → ℚ) (a : NA.Rec) (l : List NA.Rec) :
    (NA.insDesc key a l).Perm (a :: l) := by
  induction l with
  | nil => exact List.Perm.refl _
  | cons b l ih =>
    unfold NA.insDesc
    split_ifs
    · exact List.Perm.refl _
    · exact ((ih.cons b).trans (List.Perm.swap a b l))

theorem sortDesc_perm (key : NA.Rec → ℚ) (l : List NA.Rec) :
    (NA.sortDesc key l).Perm l := by
  induction l with
  | nil => exact List.Perm.refl _
  | cons a l ih =>
    unfold NA.sortDesc
    exact (insDesc_perm key a (NA.sortDesc key l)).trans (ih.cons a)

theorem insDesc_pairwise {key : NA.Rec → ℚ} {a : NA.Rec} {l : List NA.Rec}
    (hl : l.Pairwise (fun x y => key y ≤ key x)) :
    (NA.insDesc key a l).Pairwise (fun x y => key y ≤ key x) := by
  induction l with
  | nil => simp [NA.insDesc]
  | cons b l ih =>
    rcases List.pairwise_cons.mp hl with ⟨hb, hl'⟩
    unfold NA.insDesc
    split_ifs with hba
    · refine List.pairwise_cons.mpr ⟨?_, hl⟩
      intro x hx
      rcases List.mem_cons.mp hx with rfl | hx
      · exact hba
      · exact le_trans (hb x hx) hba
    · refine List.pairwise_cons.mpr ⟨?_, ih hl'⟩
      intro x hx
      have hx' := (insDesc_perm key a l).mem_iff.mp hx
      rcases List.mem_cons.mp hx' with rfl | hx'
      · exact (lt_of_not_le hba).le
      · exact hb x hx'

theorem sortDesc_pairwise (key : NA.Rec → ℚ) (l : List NA.Rec) :
    (NA.sortDesc key l).Pairwise (fun x y => key y ≤ key x) := by
  induction l with
  | nil => simp [NA.sortDesc]
  | cons a l ih =>
    unfold NA.sortDesc
    exact insDesc_pairwise ih

/-- Stability of the insertion step: for any key value `c`, inserting `a`
does not change the relative order of the records whose key is `c`. -/
theorem insDesc_filter (key : NA.Rec → ℚ) (a : NA.Rec) (l : List NA.Rec) (c : ℚ) :
    (NA.insDesc key a l).filter (fun r => decide (key r = c)) =
      (a :: l).filter (fun r => decide (key r = c)) := by
  induction l with
  | nil => rfl
  | cons b l ih =>
    unfold NA.insDesc
    split_ifs with hba
    · rfl
    · have hab : key a < key b := lt_of_not_le hba
      by_cases hbc : key b = c
      · have hac : ¬ key a = c := by
          intro hac
          rw [hac, ← hbc] at hab
          exact lt_irrefl _ hab
        simp [List.filter_cons, hbc, hac, ih]
      · simp [List.filter_cons, hbc, ih]

theorem sortDesc_filter (key : NA.Rec → ℚ) (l : List NA.Rec) (c : ℚ) :
    (NA.sortDesc key l).filter (fun r => decide (key r = c)) =
      l.filter (fun r => decide (key r = c)) := by
  induction l with
  | nil => rfl
  | cons a l ih =>
    unfold NA.sortDesc
    rw [insDesc_filter]
    simp only [List.filter_cons]
    rw [ih]

/-- C5 (amended): for any analysis type and backend record list, the
processed record list is sorted descending by `confidence_score`, is a
permutation of the confidence-annotated input, and records of equal
confidence keep their backend order (Python's sort is stable); there is no
tie-break by title. -/
theorem claim_C5_amended (atype : String) (records : List NA.Rec) :
    (NA.processedRecords atype records).Pairwise
      (fun x y => NA.confKey y ≤ NA.confKey x) ∧
    (NA.processedRecords atype records).Perm
      (records.map (NA.assignConfidence atype)) ∧
    (∀ c : ℚ, (NA.processedRecords atype records).filter
        (fun r => decide (NA.confKey r = c)) =
      (records.map (NA.assignConfidence atype)).filter
        (fun r => decide (NA.confKey r = c))) :=
  ⟨sortDesc_pairwise NA.confKey _, sortDesc_perm NA.confKey _,
    fun c => sortDesc_filter NA.confKey _ c⟩

/-- Lexicographic `≤` on character lists (title order). -/
def strLeB : List Char → List Char → Bool
  | [], _ => true
  | _ :: _, [] => false
  | a :: x, b :: y => if a = b then strLeB x y else decide (a < b)

/-- The ordering asserted by the claim: descending confidence with ties
broken by ascending title. -/
def tieSortedB : List NA.Rec → Bool
  | [] => true
  | [_] => true
  | a :: b :: t =>
    (decide (NA.confKey b < NA.confKey a) ||
      (decide (NA.confKey a = NA.confKey b) &&
        strLeB (a.title.getD "").data (b.title.getD "").data)) &&
    tieSortedB (b :: t)

/-- C5 (counterexample): two records with equal confidence and titles "b",
"a" (in that backend order) come back in backend order, not title order —
the ranked list is not tie-broken by title. -/
theorem claim_C5_counterexample :
    tieSortedB (NA.processedRecords "centrality"
      [{ title := some "b", pagerank_score := some 1 },
       { title := some "a", pagerank_score := some 1 }]) = false ∧
    (NA.processedRecords "centrality"
      [{ title := some "b", pagerank_score := some 1 },
       { title := some "a", pagerank_score := some 1 }]).map (fun r => r.title) =
      [some "b", some "a"] := by decide

/-! ## Fail-soft orchestration (claim C9) -/

theorem findRelated_foldl_not_mem
    (f : String → NA.ProcOut) (kinds : List String) (k : String)
    (hk : k ∉ kinds) (m : String → Option NA.ProcOut) :
    (kinds.foldl (fun m k' => NA.updMap m k' (f k')) m) k = m k := by
  induction kinds generalizing m with
  | nil => rfl
  | cons j rest ih =>
    have hkj : k ≠ j := fun h => hk (h ▸ List.mem_cons_self j rest)
    have hkrest : k ∉ rest := fun h => hk (List.mem_cons_of_mem j h)
    rw [List.foldl_cons, ih hkrest]
    simp [NA.updMap, hkj]

theorem findRelated_foldl_mem
    (f : String → NA.ProcOut) (kinds : List String) (k : String)
    (hk : k ∈ kinds) (m : String → Option NA.ProcOut) :
    (kinds.foldl (fun m k' => NA.updMap m k' (f k')) m) k = some (f k) := by
  induction kinds generalizing m with
  | nil => exact absurd hk (List.not_mem_nil k)
  | cons j rest ih =>
    rw [List.foldl_cons]
    by_cases hkrest : k ∈ rest
    · exact ih hkrest _
    · have hkj : k = j := by
        rcases List.mem_cons.mp hk with h | h
        · exact h
        · exact absurd h hkrest
      subst hkj
      rw [findRelated_foldl_not_mem f rest k hkrest]
      simp [NA.updMap]

/-- C9: in an analyze run whose graph projection was ensured, every
requested analysis kind gets exactly its own outcome in the results map: an
error marker when its backend call raises, the processed records otherwise;
no failure of one kind affects another and the loop itself cannot raise (it
is a total function). -/
theorem claim_C9_failure_isolation
    (backend : String → Except String (List NA.Rec))
    (kinds : List String) (k : String) (hk : k ∈ kinds) :
    NA.findRelatedResults backend kinds k = some (NA.runKindOutcome backend k) ∧
    (∀ e, backend k = .error e →
      NA.findRelatedResults backend kinds k = some (.errorMarker e)) ∧
    (∀ records, backend k = .ok records →
      NA.findRelatedResults backend kinds k =
        some (NA.processNetworkResults (.ok records) k)) := by
  have hmain : NA.findRelatedResults backend kinds k =
      some (NA.runKindOutcome backend k) :=
    findRelated_foldl_mem (NA.runKindOutcome backend) kinds k hk _
  refine ⟨hmain, ?_, ?_⟩
  · intro e he
    rw [hmain]
    unfold NA.runKindOutcome
    rw [he]
  · intro records hr
    rw [hmain]
    unfold NA.runKindOutcome
    rw [hr]

/-! ## Read-only enforcement (claims C1 and C10) -/

/-- If some keyword of `L` occurs in `up`, `find?` selects a keyword of `L`
that occurs in `up`. -/
theorem find_kw_of_any {L : List String} {up : List Char}
    (h : (L.any (fun kw => occ kw.data up)) = true) :
    ∃ kw, L.find? (fun kw => occ kw.data up) = some kw ∧ kw ∈ L ∧
      occ kw.data up = true := by
  have h3 : (L.find? (fun kw => occ kw.data up)).isSome :=
    List.find?_isSome.mpr (by simpa using List.any_eq_true.mp h)
  obtain ⟨kw, hkw⟩ := Option.isSome_iff_exists.mp h3
  refine ⟨kw, hkw, List.mem_of_find?_eq_some hkw, ?_⟩
  have h4 := List.find?_some hkw
  simpa using h4

/-- C10: forbidden-keyword matching is by raw substring of the uppercased
query, not by token — both `assert_read_only` implementations reject any
string whose uppercase form contains a forbidden keyword anywhere, even
inside a longer identifier or a quoted literal. -/
theorem claim_C10_raw_substring_matching (s : List Char) :
    ((V.FORBIDDEN_KEYWORDS.any (fun kw => occ kw.data (pyUpper s))) = true →
      ∃ kw, kw ∈ V.FORBIDDEN_KEYWORDS ∧
        V.assertReadOnly s = .error (.forbiddenKeyword kw) ∧
        occ kw.data (pyUpper s) = true) ∧
    ((RQ.FORBIDDEN_KEYWORDS.any (fun kw => occ kw.data (pyUpper s))) = true →
      ∃ kw, kw ∈ RQ.FORBIDDEN_KEYWORDS ∧
        RQ.assertReadOnly s = .error (.forbiddenKeyword kw) ∧
        occ kw.data (pyUpper s) = true) := by
  constructor
  · intro h
    obtain ⟨kw, hfind, hmem, hocc⟩ := find_kw_of_any h
    refine ⟨kw, hmem, ?_, hocc⟩
    unfold V.assertReadOnly
    rw [hfind]
  · intro h
    obtain ⟨kw, hfind, hmem, hocc⟩ := find_kw_of_any h
    refine ⟨kw, hmem, ?_, hocc⟩
    unfold RQ.assertReadOnly
    rw [hfind]

/-- C10 witness: `OFFSET` and `'Reset'` both contain `SET`; neither query
writes anything, yet both validators reject both queries. -/
theorem claim_C10_raw_substring_matching_witness :
    (∃ kw, kw ∈ V.FORBIDDEN_KEYWORDS ∧
      V.assertReadOnly "MATCH (w:Work) RETURN w.title OFFSET 5".data =
        .error (.forbiddenKeyword kw) ∧
      occ kw.data (pyUpper "MATCH (w:Work) RETURN w.title OFFSET 5".data) = true) ∧
    (∃ kw, kw ∈ RQ.FORBIDDEN_KEYWORDS ∧
      RQ.assertReadOnly "MATCH (w:Work) WHERE w.title = 'Reset' RETURN w".data =
        .error (.forbiddenKeyword kw) ∧
      occ kw.data (pyUpper "MATCH (w:Work) WHERE w.title = 'Reset' RETURN w".data) = true) :=
  ⟨(claim_C10_raw_substring_matching _).1 (by decide),
   (claim_C10_raw_substring_matching _).2 (by decide)⟩

/-- C1 (counterexample): the raw query `"MATCH (n) RETURN n //create"`
contains the forbidden keyword `create` (case-insensitively), yet
`prepare_cypher` strips the comment before the read-only check and returns a
prepared query instead of rejecting. -/
theorem claim_C1_counterexample :
    occ "CREATE".data (pyUpper "MATCH (n) RETURN n //create".data) = true ∧
    V.prepareCypher "MATCH (n) RETURN n //create".data =
      .ok "MATCH (n) RETURN n ".data := by decide

/-- C1 (amended): for every raw query whose cleaned form (stripped, comments
removed, whitespace collapsed) contains a forbidden keyword in its uppercase
form, `prepare_cypher` rejects with a `ForbiddenKeyword` error naming a
matched keyword and never returns a prepared query; a keyword occurring only
inside comments is removed before the check. -/
theorem claim_C1_forbidden_rejection (s : List Char)
    (h : (V.FORBIDDEN_KEYWORDS.any
      (fun kw => occ kw.data (pyUpper (V.cleanCypher s)))) = true) :
    ∃ kw, kw ∈ V.FORBIDDEN_KEYWORDS ∧
      occ kw.data (pyUpper (V.cleanCypher s)) = true ∧
      V.prepareCypher s = .error (.forbiddenKeyword kw) := by
  obtain ⟨kw, hfind, hmem, hocc⟩ := find_kw_of_any h
  refine ⟨kw, hmem, hocc, ?_⟩
  by_cases hs : (pyStrip s).isEmpty = true
  · exfalso
    have hnil : pyStrip s = [] := List.isEmpty_iff.mp hs
    unfold V.cleanCypher at h
    rw [hnil] at h
    exact absurd h (by decide)
  · unfold V.prepareCypher
    rw [if_neg hs]
    show Except.map (fun _ => V.cleanCypher s) (V.assertReadOnly (V.cleanCypher s)) =
      Except.error (V.VError.forbiddenKeyword kw)
    unfold V.assertReadOnly
    rw [hfind]
    rfl

/-- C1 witness: the spec's own example query is rejected with
`ForbiddenKeyword`. -/
theorem claim_C1_forbidden_rejection_witness :
    ∃ kw, kw ∈ V.FORBIDDEN_KEYWORDS ∧
      occ kw.data (pyUpper (V.cleanCypher "CREATE (n:Author) RETURN n".data)) = true ∧
      V.prepareCypher "CREATE (n:Author) RETURN n".data =
        .error (.forbiddenKeyword kw) :=
  claim_C1_forbidden_rejection _ (by decide)

/-! ## Full validation versus canonical queries (claims C2 and C6) -/

/-- C2 (code bug): a query using only canonical labels, a canonical
relationship type, a known property, no forbidden keyword and no procedure
call is nevertheless rejected by `validate_full`, because the label scan of
`validate_labels` also captures relationship tokens and `WORK_AUTHORED_BY`
is not a node label.  The repository's own test (`test_valid_labels`)
expects the second query to pass `validate_labels`; it is rejected the same
way, while `validate_relationships` itself accepts the relationship. -/
theorem claim_C2_canonical_query_rejected :
    V.validateFull "MATCH (a:Author)-[:WORK_AUTHORED_BY]->(w:Work) RETURN a.name".data =
      .error (.invalidLabel "WORK_AUTHORED_BY") ∧
    V.validateLabels
      "MATCH (a:Author)-[:WORK_AUTHORED_BY]->(w:Work)-[:WORK_HAS_TOPIC]->(t:Topic) RETURN a, w, t".data =
      .error (.invalidLabel "WORK_AUTHORED_BY") ∧
    V.validateRelationships
      "MATCH (a:Author)-[:WORK_AUTHORED_BY]->(w:Work) RETURN a.name".data = .ok () := by
  refine ⟨by decide, by decide, by decide⟩

/-- No character uppercases to the lowercase letter `g`. -/
theorem upChar_ne_g (c : Char) : upChar c ≠ 'g' := by
  unfold upChar
  cases h : casePairs.find? (fun p => p.1 == c) with
  | none =>
    simp only [Option.map_none', Option.getD_none]
    intro hc
    have hg := List.find?_eq_none.mp h ('g', 'G') (by decide)
    rw [hc] at hg
    exact hg (by decide)
  | some p =>
    simp only [Option.map_some', Option.getD_some]
    have hmem := List.mem_of_find?_eq_some h
    fin_cases hmem <;> decide

/-- C6 (code bug): the analytics-procedure exemption never applies — the
skip condition compares the lowercase literal `'CALL gds.'` against the
uppercased query, which cannot contain a lowercase `g` — so a `CALL gds.*`
query with an unknown label is rejected with `UnknownLabel` instead of
having the label check skipped. -/
theorem claim_C6_gds_skip_never_fires :
    (∀ s : List Char, occ "CALL gds.".data (pyUpper s) = false) ∧
    V.validateFull
      "CALL gds.pageRank.stream('research_network') YIELD nodeId MATCH (n:Paper) RETURN n.title".data =
      .error (.invalidLabel "Paper") := by
  constructor
  · intro s
    rw [Bool.eq_false_iff]
    intro htrue
    obtain ⟨u, v, heq⟩ := (occ_iff _ _).mp htrue
    have hg : 'g' ∈ pyUpper s := by
      rw [heq]
      have : 'g' ∈ "CALL gds.".data := by decide
      simp [List.mem_append, this]
    obtain ⟨c, _, hc⟩ := List.mem_map.mp hg
    exact upChar_ne_g c hc
  · decide

/-! ## Property validation (claim C7) -/

theorem checkProps_ok {l : List (List Char × List Char)}
    (h : ∀ a ∈ l, RQ.knownProp (String.mk a.2) = true) :
    RQ.checkProps l = .ok () := by
  induction l with
  | nil => rfl
  | cons a rest ih =>
    unfold RQ.checkProps
    rw [if_pos (h a (List.mem_cons_self a rest))]
    exact ih (fun x hx => h x (List.mem_cons_of_mem a hx))

theorem checkProps_err {l : List (List Char × List Char)}
    (h : ∃ a ∈ l, RQ.knownProp (String.mk a.2) = false) :
    ∃ p, RQ.checkProps l = .error (.unknownProperty p) ∧ RQ.knownProp p = false := by
  induction l with
  | nil => simp at h
  | cons a rest ih =>
    by_cases ha : RQ.knownProp (String.mk a.2) = true
    · have hrest : ∃ x ∈ rest, RQ.knownProp (String.mk x.2) = false := by
        obtain ⟨x, hx, hfx⟩ := h
        rcases List.mem_cons.mp hx with rfl | hx
        · rw [ha] at hfx; cases hfx
        · exact ⟨x, hx, hfx⟩
      obtain ⟨p, hp, hfp⟩ := ih hrest
      refine ⟨p, ?_, hfp⟩
      unfold RQ.checkProps
      rw [if_pos ha]
      exact hp
    · refine ⟨String.mk a.2, ?_, Bool.eq_false_iff.mpr ha⟩
      unfold RQ.checkProps
      rw [if_neg ha]

/-- C7: every query with a `variable.property` access whose property name
lies outside the union of all node kinds' allowed properties is rejected by
`validate_properties` with an `UnknownProperty` error; a query all of whose
accesses use known property names passes the check; and the same rejection
surfaces through the tool's full validation pipeline after `prepare_cypher`
succeeds. -/
theorem claim_C7_property_union_check (s : List Char) :
    ((∃ a ∈ propScan s, RQ.knownProp (String.mk a.2) = false) →
      ∃ p, RQ.validateProperties s = .error (.unknownProperty p) ∧
        RQ.knownProp p = false) ∧
    ((∀ a ∈ propScan s, RQ.knownProp (String.mk a.2) = true) →
      RQ.validateProperties s = .ok ()) ∧
    (∀ q, RQ.prepareCypher s = .ok q →
      (∃ a ∈ propScan q, RQ.knownProp (String.mk a.2) = false) →
      ∃ p, RQ.fullValidation s = .error (.unknownProperty p)) := by
  refine ⟨fun h => checkProps_err h, fun h => checkProps_ok h, ?_⟩
  intro q hq h
  obtain ⟨p, hp, _⟩ := checkProps_err h
  refine ⟨p, ?_⟩
  unfold RQ.fullValidation
  rw [hq]
  show Except.bind (RQ.validateProperties q) _ = _
  unfold RQ.validateProperties
  rw [hp]
  rfl

/-- C7 witness: `a.bogus` is rejected as an unknown property, `a.name`
passes, and the unknown property surfaces through the full pipeline. -/
theorem claim_C7_property_union_check_witness :
    (∃ p, RQ.validateProperties "MATCH (a:Author) RETURN a.bogus".data =
      .error (.unknownProperty p) ∧ RQ.knownProp p = false) ∧
    RQ.validateProperties "MATCH (a:Author) RETURN a.name".data = .ok () ∧
    (∃ p, RQ.fullValidation "MATCH (a:Author) RETURN a.bogus".data =
      .error (.unknownProperty p)) :=
  ⟨(claim_C7_property_union_check _).1 (by decide),
   (claim_C7_property_union_check _).2.1 (by decide),
   (claim_C7_property_union_check "MATCH (a:Author) RETURN a.bogus".data).2.2
     "MATCH (a:Author) RETURN a.bogus".data (by decide) (by decide)⟩

/-! ## Alias substitution round-trip (claim C8) -/

/-- `normalize_relationships` is the five replacement passes in dict
order. -/
theorem normRel_unfold (s : List Char) :
    RQ.normalizeRelationships s =
      repl (':' :: "TOPIC_IN".data) (':' :: "WORK_HAS_TOPIC".data) false
        (repl (':' :: "HAS_TOPIC".data) (':' :: "WORK_HAS_TOPIC".data) false
          (repl (':' :: "AUTHORED_BY".data) (':' :: "WORK_AUTHORED_BY".data) false
            (repl (':' :: "AUTHORED".data) (':' :: "WORK_AUTHORED_BY".data) false
              (repl (':' :: "WROTE".data) (':' :: "WORK_AUTHORED_BY".data) false s)))) := rfl

/-- `normalize_properties` is the three boundary replacement passes in dict
order. -/
theorem normProp_unfold (s : List Char) :
    RQ.normalizeProperties s =
      repl ('.' :: "year".data) ('.' :: "publication_date".data) true
        (repl ('.' :: "pub_year".data) ('.' :: "publication_date".data) true
          (repl ('.' :: "publication_year".data) ('.' :: "publication_date".data) true s)) := rfl

/-- C8: alias substitution round-trip.  For every relationship alias, a
query containing the alias token `:ALIAS` normalizes (by
`normalize_relationships`) to a query with no occurrence of the alias token
and at least one occurrence of its canonical token; for every property
alias, a query containing the accessor token `.alias` (followed by a word
boundary, as the `\b`-anchored substitution matches it) normalizes (by
`normalize_properties`) to a query with no boundary occurrence of the alias
accessor and at least one occurrence of the canonical accessor. -/
theorem claim_C8_alias_roundtrip :
    (∀ pr ∈ RQ.RELATIONSHIP_CANONICAL, ∀ s : List Char,
      occ (':' :: pr.1.data) s = true →
        occ (':' :: pr.1.data) (RQ.normalizeRelationships s) = false ∧
        occ (':' :: pr.2.data) (RQ.normalizeRelationships s) = true) ∧
    (∀ pr ∈ RQ.PROPERTY_ALIASES, ∀ s : List Char,
      occB ('.' :: pr.1.data) s = true →
        occB ('.' :: pr.1.data) (RQ.normalizeProperties s) = false ∧
        occ ('.' :: pr.2.data) (RQ.normalizeProperties s) = true) := by
  constructor
  · intro pr hpr s h
    fin_cases hpr
    · -- WROTE → WORK_AUTHORED_BY
      rw [normRel_unfold]
      constructor
      · exact repl_keep_no_occF (by decide) (by decide) (by decide) (by decide)
          (repl_keep_no_occF (by decide) (by decide) (by decide) (by decide)
            (repl_keep_no_occF (by decide) (by decide) (by decide) (by decide)
              (repl_keep_no_occF (by decide) (by decide) (by decide) (by decide)
                (repl_no_occF (by decide) (by decide) (by decide) (by decide) s))))
      · exact repl_keep_occF (by decide) (by decide) (by decide) (by decide)
          (repl_keep_occF (by decide) (by decide) (by decide) (by decide)
            (repl_keep_occF (by decide) (by decide) (by decide) (by decide)
              (repl_keep_occF (by decide) (by decide) (by decide) (by decide)
                (repl_createsF h))))
    · -- AUTHORED → WORK_AUTHORED_BY
      rw [normRel_unfold]
      constructor
      · exact repl_keep_no_occF (by decide) (by decide) (by decide) (by decide)
          (repl_keep_no_occF (by decide) (by decide) (by decide) (by decide)
            (repl_keep_no_occF (by decide) (by decide) (by decide) (by decide)
              (repl_no_occF (by decide) (by decide) (by decide) (by decide) _)))
      · exact repl_keep_occF (by decide) (by decide) (by decide) (by decide)
          (repl_keep_occF (by decide) (by decide) (by decide) (by decide)
            (repl_keep_occF (by decide) (by decide) (by decide) (by decide)
              (repl_createsF
                (repl_keep_occF (by decide) (by decide) (by decide) (by decide) h))))
    · -- AUTHORED_BY → WORK_AUTHORED_BY
      rw [normRel_unfold]
      constructor
      · exact repl_keep_no_occF (by decide) (by decide) (by decide) (by decide)
          (repl_keep_no_occF (by decide) (by decide) (by decide) (by decide)
            (repl_no_occF (by decide) (by decide) (by decide) (by decide) _))
      · have h2 : occ (':' :: "AUTHORED".data) s = true :=
          occ_of_pre_of_occ (by decide) h
        exact repl_keep_occF (by decide) (by decide) (by decide) (by decide)
          (repl_keep_occF (by decide) (by decide) (by decide) (by decide)
            (repl_keep_occF (by decide) (by decide) (by decide) (by decide)
              (repl_createsF
                (repl_keep_occF (by decide) (by decide) (by decide) (by decide) h2))))
    · -- HAS_TOPIC → WORK_HAS_TOPIC
      rw [normRel_unfold]
      constructor
      · exact repl_keep_no_occF (by decide) (by decide) (by decide) (by decide)
          (repl_no_occF (by decide) (by decide) (by decide) (by decide) _)
      · exact repl_keep_occF (by decide) (by decide) (by decide) (by decide)
          (repl_createsF
            (repl_keep_occF (by decide) (by decide) (by decide) (by decide)
              (repl_keep_occF (by decide) (by decide) (by decide) (by decide)
                (repl_keep_occF (by decide) (by decide) (by decide) (by decide) h))))
    · -- TOPIC_IN → WORK_HAS_TOPIC
      rw [normRel_unfold]
      constructor
      · exact repl_no_occF (by decide) (by decide) (by decide) (by decide) _
      · exact repl_createsF
          (repl_keep_occF (by decide) (by decide) (by decide) (by decide)
            (repl_keep_occF (by decide) (by decide) (by decide) (by decide)
              (repl_keep_occF (by decide) (by decide) (by decide) (by decide)
                (repl_keep_occF (by decide) (by decide) (by decide) (by decide) h))))
  · intro pr hpr s h
    fin_cases hpr
    · -- publication_year → publication_date
      rw [normProp_unfold]
      constructor
      · exact repl_keep_no_occBF (by decide) (by decide) (by decide) (by decide) (by decide)
          (repl_keep_no_occBF (by decide) (by decide) (by decide) (by decide) (by decide)
            (repl_no_occBF (by decide) (by decide) (by decide) (by decide) (by decide) s))
      · exact repl_keep_occF (by decide) (by decide) (by decide) (by decide)
          (repl_keep_occF (by decide) (by decide) (by decide) (by decide)
            (repl_creates_boundF h))
    · -- pub_year → publication_date
      rw [normProp_unfold]
      constructor
      · exact repl_keep_no_occBF (by decide) (by decide) (by decide) (by decide) (by decide)
          (repl_no_occBF (by decide) (by decide) (by decide) (by decide) (by decide) _)
      · exact repl_keep_occF (by decide) (by decide) (by decide) (by decide)
          (repl_creates_boundF
            (repl_keep_occBF (by decide) (by decide) (by decide) (by decide) (by decide) h))
    · -- year → publication_date
      rw [normProp_unfold]
      constructor
      · exact repl_no_occBF (by decide) (by decide) (by decide) (by decide) (by decide) _
      · exact repl_creates_boundF
          (repl_keep_occBF (by decide) (by decide) (by decide) (by decide) (by decide)
            (repl_keep_occBF (by decide) (by decide) (by decide) (by decide) (by decide) h))

/-- C8 witness: the spec's own alias example `[:AUTHORED]` plus a `.year`
accessor, with hypotheses discharged by evaluation. -/
theorem claim_C8_alias_roundtrip_witness :
    (occ (':' :: "AUTHORED".data)
        (RQ.normalizeRelationships
          "MATCH (a:Author)-[:AUTHORED]->(w:Work) WHERE w.year > 2000 RETURN a.name".data) = false ∧
      occ (':' :: "WORK_AUTHORED_BY".data)
        (RQ.normalizeRelationships
          "MATCH (a:Author)-[:AUTHORED]->(w:Work) WHERE w.year > 2000 RETURN a.name".data) = true) ∧
    (occB ('.' :: "year".data)
        (RQ.normalizeProperties
          "MATCH (a:Author)-[:AUTHORED]->(w:Work) WHERE w.year > 2000 RETURN a.name".data) = false ∧
      occ ('.' :: "publication_date".data)
        (RQ.normalizeProperties
          "MATCH (a:Author)-[:AUTHORED]->(w:Work) WHERE w.year > 2000 RETURN a.name".data) = true) :=
  ⟨claim_C8_alias_roundtrip.1 ("AUTHORED", "WORK_AUTHORED_BY") (by decide) _ (by decide),
   claim_C8_alias_roundtrip.2 ("year", "publication_date") (by decide) _ (by decide)⟩

/-- C9 witness: kinds `["centrality", "community"]` with the "community"
backend call raising a timeout — the map holds processed records for
"centrality" and an error marker for "community". -/
theorem claim_C9_failure_isolation_witness :
    NA.findRelatedResults
        (fun k => if k == "community" then .error "timeout"
          else .ok [{ title := some "w", pagerank_score := some 1 }])
        ["centrality", "community"] "community" = some (.errorMarker "timeout") ∧
    NA.findRelatedResults
        (fun k => if k == "community" then .error "timeout"
          else .ok [{ title := some "w", pagerank_score := some 1 }])
        ["centrality", "community"] "centrality" =
      some (NA.processNetworkResults
        (.ok [{ title := some "w", pagerank_score := some 1 }]) "centrality") :=
  ⟨(claim_C9_failure_isolation _ _ "community" (by decide)).2.1 "timeout" (by decide),
   (claim_C9_failure_isolation _ _ "centrality" (by decide)).2.2 _ (by decide)⟩

end Praxis
